import Mathlib

set_option maxRecDepth 100000

/-!
Verification of `tools/dogfooding/src/package_resolved.py`.

The Python module is a thin wrapper over a `Package.resolved` JSON document.
We embed the JSON data model as the inductive type `J`, Python dictionary and
list access as explicit functions returning `Except` (an uncaught Python
`KeyError`/`TypeError` becomes an `Except.error`), Python `==` as the
function `pyEq`, and each method of `PackageResolvedFile` as a Lean function
translated line by line from the source.  `json.load` and `json.dump` (with
`indent=2` and `sort_keys=True`, as the source calls them) are modelled by an
executable parser and serializer over `J`; floating-point literals are
outside the model (`J` has no float constructor and the parser rejects
them), and the `print` side channel of `update_dependency` is modelled as
the returned `UpdateNotice` value.
-/

deriving instance DecidableEq for Except

namespace PackageResolved

/-- A JSON value, as produced by Python's `json.load`: `null`, booleans,
integers, strings, arrays, and objects (Python dicts, modelled as ordered
association lists with the keys kept in insertion order, as Python keeps
them). -/
inductive J where
  | null : J
  | bool : Bool → J
  | num : Int → J
  | str : String → J
  | arr : List J → J
  | obj : List (String × J) → J

mutual

/-- Number of constructor nodes of a JSON value (the termination measure for
strong-induction proofs, and a bound on parser fuel: every node serializes
to at least one character). -/
def jsize : J → Nat
  | .null => 1
  | .bool _ => 1
  | .num _ => 1
  | .str _ => 1
  | .arr xs => 1 + jsizeL xs
  | .obj kvs => 1 + jsizeF kvs

/-- Sum of `jsize` over array elements, plus one per element. -/
def jsizeL : List J → Nat
  | [] => 0
  | x :: xs => 1 + jsize x + jsizeL xs

/-- Sum of `jsize` over object member values, plus one per member. -/
def jsizeF : List (String × J) → Nat
  | [] => 0
  | kv :: kvs => 1 + jsize kv.2 + jsizeF kvs

end

mutual

/-- Structural (Lean) equality of JSON values as a boolean, for
decidability. -/
def jeq : J → J → Bool
  | .null, .null => true
  | .bool x, .bool y => x == y
  | .num x, .num y => x == y
  | .str x, .str y => x == y
  | .arr xs, .arr ys => jeqL xs ys
  | .obj xs, .obj ys => jeqF xs ys
  | _, _ => false

/-- `jeq` lifted to lists of values. -/
def jeqL : List J → List J → Bool
  | [], [] => true
  | x :: xs, y :: ys => jeq x y && jeqL xs ys
  | _, _ => false

/-- `jeq` lifted to lists of members. -/
def jeqF : List (String × J) → List (String × J) → Bool
  | [], [] => true
  | kv :: kvs, kw :: kws => kv.1 == kw.1 && jeq kv.2 kw.2 && jeqF kvs kws
  | _, _ => false

end

mutual

theorem jeq_iff : ∀ a b : J, jeq a b = true ↔ a = b
  | .null, b => by cases b <;> simp [jeq]
  | .bool x, b => by cases b <;> simp [jeq]
  | .num x, b => by cases b <;> simp [jeq]
  | .str x, b => by cases b <;> simp [jeq]
  | .arr xs, b => by cases b <;> simp [jeq, jeqL_iff xs]
  | .obj kvs, b => by cases b <;> simp [jeq, jeqF_iff kvs]

theorem jeqL_iff : ∀ xs ys : List J, jeqL xs ys = true ↔ xs = ys
  | [], ys => by cases ys <;> simp [jeqL]
  | x :: xs, [] => by simp [jeqL]
  | x :: xs, y :: ys => by simp [jeqL, jeq_iff x y, jeqL_iff xs ys]

theorem jeqF_iff : ∀ kvs kws : List (String × J), jeqF kvs kws = true ↔ kvs = kws
  | [], kws => by cases kws <;> simp [jeqF]
  | kv :: kvs, [] => by simp [jeqF]
  | kv :: kvs, kw :: kws => by
    simp [jeqF, jeq_iff kv.2 kw.2, jeqF_iff kvs kws, Prod.ext_iff, and_assoc]

end

instance : DecidableEq J := fun a b =>
  if h : jeq a b = true then .isTrue ((jeq_iff a b).mp h)
  else .isFalse (fun hab => h ((jeq_iff a b).mpr hab))

/-- Python dictionary read `d[k]`: the value of the first (with `dict`
semantics, only) binding of `k`. -/
def lookupKey : List (String × J) → String → Option J
  | [], _ => none
  | (k, v) :: rest, key => if k = key then some v else lookupKey rest key

/-- Python dictionary write `d[k] = v`: an existing binding keeps its
position and gets the new value; a new key is appended at the end. -/
def setKey : List (String × J) → String → J → List (String × J)
  | [], key, v => [(key, v)]
  | (k, w) :: rest, key, v =>
    if k = key then (key, v) :: rest else (k, w) :: setKey rest key v

/-- Python subscription `v[k]` with a string key: a `KeyError` on a missing
key and a `TypeError` on a non-dict value, both modelled as `Except.error`
(the source never catches them). -/
def jIndex (v : J) (k : String) : Except String J :=
  match v with
  | .obj kvs =>
    match lookupKey kvs k with
    | some w => .ok w
    | none => .error ("KeyError: " ++ k)
  | _ => .error ("TypeError: value is not subscriptable with key " ++ k)

mutual

/-- Python `==` on JSON values.  Mirrors CPython: `True == 1` and
`False == 0` hold across `bool`/`int`; lists compare pointwise in order;
dicts compare as key-to-value maps (same length, every binding of the left
present with an equal value in the right), ignoring insertion order; values
of different (non-numeric) kinds are unequal. -/
def pyEq : J → J → Bool
  | .null, .null => true
  | .bool x, .bool y => x == y
  | .bool x, .num y => (if x then (1 : Int) else 0) == y
  | .num x, .bool y => x == (if y then (1 : Int) else 0)
  | .num x, .num y => x == y
  | .str x, .str y => x == y
  | .arr xs, .arr ys => xs.length == ys.length && pyEqL xs ys
  | .obj xs, .obj ys => xs.length == ys.length && pyEqF xs ys
  | _, _ => false

/-- Pointwise Python `==` of two arrays (lengths are compared by the
caller). -/
def pyEqL : List J → List J → Bool
  | [], _ => true
  | _ :: _, [] => true
  | x :: xs, y :: ys => pyEq x y && pyEqL xs ys

/-- Every binding of the first dict is present in the second with a Python
`==` value (lengths are compared by the caller). -/
def pyEqF : List (String × J) → List (String × J) → Bool
  | [], _ => true
  | (k, v) :: kvs, kws =>
    (match lookupKey kws k with
     | some w => pyEq v w
     | none => false) && pyEqF kvs kws

end

/-- Membership of one key/value pair in a `dict.items()` view, under Python
`==` (set membership, as used by the symmetric difference
`old.items() ^ new.items()`). -/
def pairMemB (kv : String × J) (l : List (String × J)) : Bool :=
  l.any (fun kv2 => kv.1 == kv2.1 && pyEq kv.2 kv2.2)

/-- Whether `len(a.items() ^ b.items()) == 0`: the symmetric difference of
the two item sets is empty exactly when each pair of one view belongs to the
other. -/
def itemsDiffEmpty (a b : List (String × J)) : Bool :=
  a.all (fun kv => pairMemB kv b) && b.all (fun kv => pairMemB kv a)

/-- The handle of `package_resolved.py`: the constructor argument `path` and
the parsed document `self.packages`. -/
structure PackageResolvedFile where
  path : String
  packages : J
deriving DecidableEq

/-- The list comprehension
`[index for index, p in enumerate(pins) if p['package'] == package_name]`
of `__get_package`, starting at index `start`: every pin's `p['package']` is
evaluated (a pin without the key raises, failing the whole lookup), and the
indices whose package name compares `==` to `package_name` are collected in
order. -/
def matchIndicesAux : List J → String → Nat → Except String (List Nat)
  | [], _, _ => .ok []
  | p :: rest, name, i =>
    match jIndex p "package" with
    | .error e => .error e
    | .ok pkg =>
      match matchIndicesAux rest name (i + 1) with
      | .error e => .error e
      | .ok tail => if pyEq pkg (J.str name) then .ok (i :: tail) else .ok tail

/-- The access `self.packages['object']['pins']` shared by `__get_package`
and `get_number_of_dependencies`, requiring the result to be a list (any
other shape fails later in the source, at `enumerate`/`p['package']` or
`len`; the model fails here). -/
def getPins (packages : J) : Except String (List J) :=
  match packages with
  | .obj topKvs =>
    match lookupKey topKvs "object" with
    | some (J.obj objKvs) =>
      (match lookupKey objKvs "pins" with
       | some (J.arr pins) => .ok pins
       | some _ => .error "TypeError: pins is not a list"
       | none => .error "KeyError: pins")
    | some _ => .error "TypeError: object is not a dict"
    | none => .error "KeyError: object"
  | _ => .error "TypeError: packages is not a dict"

/-- `PackageResolvedFile.__get_package`: the first pin whose `package` field
equals `package_name`, or the source's error message when no pin matches. -/
def get_package (packages : J) (path name : String) : Except String J :=
  match getPins packages with
  | .error e => .error e
  | .ok pins =>
    match matchIndicesAux pins name 0 with
    | .error e => .error e
    | .ok [] => .error (path ++ " does not contain pin named \"" ++ name ++ "\"")
    | .ok (i :: _) => .ok (pins.getD i J.null)

/-- The `print` side channel of `update_dependency`, as data: either the
"Updated" notice carrying the old and new state snapshots, or the
"up-to-date" notice. -/
inductive UpdateNotice where
  | updated (packageName : String) (oldState newState : List (String × J))
  | upToDate (packageName : String)
deriving DecidableEq

/-- Body of `PackageResolvedFile.update_dependency` on the document value:
looks the pin up (as `__get_package` does, via the same index computation),
snapshots `package['state']`, assigns the three fields `branch`, `revision`
and `version` unconditionally, snapshots again, and compares the snapshots
by the symmetric difference of their item sets.  In-place mutation through
the alias returned by `__get_package` is modelled by rebuilding the document
along the access path `packages['object']['pins'][i]['state']`; every
uncaught Python exception (`KeyError`, `TypeError`) is an `Except.error`
and, as in Python, aborts before any field is assigned. -/
def update_go (packages : J) (path name : String) (nb nr nv : J) :
    Except String (J × UpdateNotice) :=
  match packages with
  | .obj topKvs =>
    match lookupKey topKvs "object" with
    | some (J.obj objKvs) =>
      (match lookupKey objKvs "pins" with
       | some (J.arr pins) =>
         (match matchIndicesAux pins name 0 with
          | .error e => .error e
          | .ok [] =>
            .error (path ++ " does not contain pin named \"" ++ name ++ "\"")
          | .ok (i :: _) =>
            (match pins.getD i J.null with
             | J.obj pinKvs =>
               (match lookupKey pinKvs "state" with
                | some (J.obj kvs) =>
                  -- old_state = deepcopy(package['state'])
                  let kvs3 :=
                    setKey (setKey (setKey kvs "branch" nb) "revision" nr) "version" nv
                  -- new_state = deepcopy(package['state']); diff = old ^ new
                  let notice :=
                    if itemsDiffEmpty kvs kvs3 then UpdateNotice.upToDate name
                    else UpdateNotice.updated name kvs kvs3
                  let newPin := J.obj (setKey pinKvs "state" (J.obj kvs3))
                  let newPackages :=
                    J.obj (setKey topKvs "object"
                      (J.obj (setKey objKvs "pins" (J.arr (pins.set i newPin)))))
                  .ok (newPackages, notice)
                | some _ => .error "TypeError: state does not support item assignment"
                | none => .error "KeyError: state")
             | _ => .error "TypeError: pin is not a dict")
          )
       | some _ => .error "TypeError: pins is not a list"
       | none => .error "KeyError: pins")
    | some _ => .error "TypeError: object is not a dict"
    | none => .error "KeyError: object"
  | _ => .error "TypeError: packages is not a dict"

/-- `PackageResolvedFile.update_dependency`: on success the handle holds the
mutated document and the notice is returned; a raised error propagates and,
since the source raises before any assignment, leaves `self.packages`
untouched. -/
def update_dependency (f : PackageResolvedFile) (name : String) (nb nr nv : J) :
    PackageResolvedFile × Except String UpdateNotice :=
  match update_go f.packages f.path name nb nr nv with
  | .error e => (f, .error e)
  | .ok (p, notice) => (⟨f.path, p⟩, .ok notice)

/-- `PackageResolvedFile.read_dependency`: `deepcopy(package['state'])` of
the matched pin.  `deepcopy` is the identity on the immutable `J` values of
the model. -/
def read_dependency (f : PackageResolvedFile) (name : String) : Except String J :=
  match get_package f.packages f.path name with
  | .error e => .error e
  | .ok pin => jIndex pin "state"

/-- `PackageResolvedFile.get_number_of_dependencies`:
`len(self.packages['object']['pins'])`. -/
def get_number_of_dependencies (f : PackageResolvedFile) : Except String Nat :=
  match getPins f.packages with
  | .error e => .error e
  | .ok pins => .ok pins.length

/-! ### The textual layer: `json.dump(indent=2, sort_keys=True)` and `json.load` -/

/-- Decimal digit character. -/
def digitChar (n : Nat) : Char := Char.ofNat (48 + n)

/-- Decimal digits of `n`, most significant first, in front of `acc`; the
fuel only needs to cover the number of digits, so `n + 1` always suffices. -/
def natToDigitsAux : Nat → Nat → List Char → List Char
  | 0, _, acc => acc
  | fuel + 1, n, acc =>
    if n < 10 then digitChar n :: acc
    else natToDigitsAux fuel (n / 10) (digitChar (n % 10) :: acc)

/-- Decimal digits of a natural number. -/
def natToChars (n : Nat) : List Char := natToDigitsAux (n + 1) n []

/-- Python's decimal rendering of an integer, as `json.dump` emits it. -/
def intToChars : Int → List Char
  | .ofNat n => natToChars n
  | .negSucc n => '-' :: natToChars (n + 1)

/-- Lowercase hexadecimal digit character, as CPython's `\u%04x` emits. -/
def hexDigitChar (d : Nat) : Char :=
  if d < 10 then Char.ofNat (48 + d) else Char.ofNat (87 + d)

/-- Four lowercase hex digits of `n < 0x10000`. -/
def hex4chars (n : Nat) : List Char :=
  [hexDigitChar (n / 4096 % 16), hexDigitChar (n / 256 % 16),
   hexDigitChar (n / 16 % 16), hexDigitChar (n % 16)]

/-- CPython `json` escaping of one character with the default
`ensure_ascii=True`: the two-character escapes of `ESCAPE_DCT`, `\uXXXX`
for other control and non-ASCII characters (`0x7f` included), and a
surrogate pair for characters beyond the basic multilingual plane. -/
def escChar (c : Char) : List Char :=
  if c = '"' then ['\\', '"']
  else if c = '\\' then ['\\', '\\']
  else if c = '\n' then ['\\', 'n']
  else if c = '\r' then ['\\', 'r']
  else if c = '\t' then ['\\', 't']
  else if c.toNat = 8 then ['\\', 'b']
  else if c.toNat = 12 then ['\\', 'f']
  else if c.toNat < 32 then '\\' :: 'u' :: hex4chars c.toNat
  else if c.toNat < 127 then [c]
  else if c.toNat < 65536 then '\\' :: 'u' :: hex4chars c.toNat
  else
    ('\\' :: 'u' :: hex4chars (55296 + (c.toNat - 65536) / 1024)) ++
      ('\\' :: 'u' :: hex4chars (56320 + (c.toNat - 65536) % 1024))

/-- A JSON string literal: quote, escaped characters, quote. -/
def serStrChars (s : String) : List Char :=
  '"' :: (s.data.flatMap escChar ++ ['"'])

/-- `indent`-many spaces. -/
def pad (n : Nat) : List Char := List.replicate n ' '

/-- Code-point lexicographic order on character lists — Python's `str`
comparison, used by `sorted` on dict keys. -/
def charsLe : List Char → List Char → Bool
  | [], _ => true
  | _ :: _, [] => false
  | a :: as, b :: bs =>
    if a.toNat < b.toNat then true
    else if b.toNat < a.toNat then false
    else charsLe as bs

/-- Python's `≤` on strings. -/
def keyLe (a b : String) : Bool := charsLe a.data b.data

/-- Sort members by key, with Python's code-point string order;
`List.insertionSort` is stable, as Python's `sorted` is. -/
def sortPairs {α : Type} (l : List (String × α)) : List (String × α) :=
  List.insertionSort (fun a b => keyLe a.1 b.1 = true) l

/-- Array items at one indentation level: each on its own line behind
`pad ind`, separated by `",\n"` (the default separators of `json.dump`
when `indent` is given strip the trailing space after the comma). -/
def joinItems : List (List Char) → Nat → List Char
  | [], _ => []
  | [x], ind => pad ind ++ x
  | x :: y :: xs, ind => pad ind ++ x ++ ',' :: '\n' :: joinItems (y :: xs) ind

/-- Object members at one indentation level: `"key": value` lines behind
`pad ind`, separated by `",\n"`. -/
def joinMembers : List (String × List Char) → Nat → List Char
  | [], _ => []
  | [kv], ind => pad ind ++ serStrChars kv.1 ++ ':' :: ' ' :: kv.2
  | kv :: kw :: kvs, ind =>
    pad ind ++ serStrChars kv.1 ++ ':' :: ' ' :: kv.2 ++
      ',' :: '\n' :: joinMembers (kw :: kvs) ind

mutual

/-- `json.dump(v, indent=2, sort_keys=True)` at the current indentation
`ind`: scalars inline, empty containers as two brackets, non-empty
containers with one item per line.  `sort_keys=True` sorts the members of
every object by key at emission time; since serializing a member's value
does not depend on its position, serializing each member first and sorting
the serialized members (as done here, to keep the recursion structural)
emits exactly the same text. -/
def serJ : J → Nat → List Char
  | .null, _ => ['n', 'u', 'l', 'l']
  | .bool b, _ => if b then ['t', 'r', 'u', 'e'] else ['f', 'a', 'l', 's', 'e']
  | .num n, _ => intToChars n
  | .str s, _ => serStrChars s
  | .arr [], _ => ['[', ']']
  | .arr (x :: xs), ind =>
    '[' :: '\n' :: (joinItems (serElems (x :: xs) (ind + 2)) (ind + 2) ++
      '\n' :: (pad ind ++ [']']))
  | .obj [], _ => ['\x7b', '\x7d']
  | .obj (kv :: kvs), ind =>
    '\x7b' :: '\n' :: (joinMembers (sortPairs (serMembers (kv :: kvs) (ind + 2))) (ind + 2) ++
      '\n' :: (pad ind ++ ['\x7d']))

/-- The serialized texts of array elements, in order. -/
def serElems : List J → Nat → List (List Char)
  | [], _ => []
  | x :: xs, ind => serJ x ind :: serElems xs ind

/-- The members of an object paired with their serialized value texts, in
document order (sorted afterwards by `serJ`). -/
def serMembers : List (String × J) → Nat → List (String × List Char)
  | [], _ => []
  | kv :: kvs, ind => (kv.1, serJ kv.2 ind) :: serMembers kvs ind

end

mutual

/-- The value `json.load` gives back from text dumped with
`sort_keys=True`: every object's members sorted by key, recursively, array
order untouched. -/
def sortKeysJ : J → J
  | .null => .null
  | .bool b => .bool b
  | .num n => .num n
  | .str s => .str s
  | .arr xs => .arr (sortKeysL xs)
  | .obj kvs => .obj (sortPairs (sortKeysF kvs))

/-- `sortKeysJ` over array elements. -/
def sortKeysL : List J → List J
  | [] => []
  | x :: xs => sortKeysJ x :: sortKeysL xs

/-- `sortKeysJ` over member values (the member list itself is sorted by the
caller). -/
def sortKeysF : List (String × J) → List (String × J)
  | [] => []
  | kv :: kvs => (kv.1, sortKeysJ kv.2) :: sortKeysF kvs

end

/-- No string in the list repeats (Python dict keys are unique). -/
def nodupKeysB : List String → Bool
  | [] => true
  | k :: ks => !(List.elem k ks) && nodupKeysB ks

mutual

/-- Every object anywhere inside the value has pairwise-distinct keys —
true of everything `json.load` can produce, since Python dicts collapse
duplicate keys. -/
def uniqKeysJ : J → Bool
  | .null => true
  | .bool _ => true
  | .num _ => true
  | .str _ => true
  | .arr xs => uniqKeysL xs
  | .obj kvs => nodupKeysB (kvs.map Prod.fst) && uniqKeysF kvs

/-- `uniqKeysJ` over array elements. -/
def uniqKeysL : List J → Bool
  | [] => true
  | x :: xs => uniqKeysJ x && uniqKeysL xs

/-- `uniqKeysJ` over member values. -/
def uniqKeysF : List (String × J) → Bool
  | [] => true
  | kv :: kvs => uniqKeysJ kv.2 && uniqKeysF kvs

end

/-- Adjacent keys in nondecreasing code-point order. -/
def sortedStrB : List String → Bool
  | [] => true
  | [_] => true
  | a :: b :: rest => keyLe a b && sortedStrB (b :: rest)

mutual

/-- Every object anywhere inside the value lists its members in sorted key
order (what C6 asserts of the saved text's structure). -/
def keysSortedJ : J → Bool
  | .null => true
  | .bool _ => true
  | .num _ => true
  | .str _ => true
  | .arr xs => keysSortedL xs
  | .obj kvs => sortedStrB (kvs.map Prod.fst) && keysSortedF kvs

/-- `keysSortedJ` over array elements. -/
def keysSortedL : List J → Bool
  | [] => true
  | x :: xs => keysSortedJ x && keysSortedL xs

/-- `keysSortedJ` over member values. -/
def keysSortedF : List (String × J) → Bool
  | [] => true
  | kv :: kvs => keysSortedJ kv.2 && keysSortedF kvs

end

/-- `json.dump(self.packages, fp=file, indent=2, sort_keys=True)`: the
characters written to the file before the explicit `file.write('\n')`. -/
def dumps (v : J) : List Char := serJ v 0

/-- `PackageResolvedFile.save`: the full content written back to
`self.path` — the dumped document plus the newline the source appends. -/
def save (f : PackageResolvedFile) : String :=
  String.mk (dumps f.packages ++ ['\n'])

/-- JSON whitespace, as `json.load` skips it. -/
def isWsB (c : Char) : Bool := c = ' ' || c = '\t' || c = '\n' || c = '\r'

/-- Drop leading JSON whitespace. -/
def skipWs : List Char → List Char
  | [] => []
  | c :: rest => if isWsB c then skipWs rest else c :: rest

/-- ASCII decimal digit. -/
def isDigitB (c : Char) : Bool := 48 ≤ c.toNat && c.toNat ≤ 57

/-- Value of one hex digit, either case. -/
def hexVal (c : Char) : Option Nat :=
  if 48 ≤ c.toNat ∧ c.toNat ≤ 57 then some (c.toNat - 48)
  else if 97 ≤ c.toNat ∧ c.toNat ≤ 102 then some (c.toNat - 87)
  else if 65 ≤ c.toNat ∧ c.toNat ≤ 70 then some (c.toNat - 55)
  else none

/-- Value of a four-hex-digit escape. -/
def hex4 (a b c d : Char) : Option Nat :=
  match hexVal a, hexVal b, hexVal c, hexVal d with
  | some x, some y, some z, some w => some (x * 4096 + y * 256 + z * 16 + w)
  | _, _, _, _ => none

/-- One-character escapes accepted after a backslash. -/
def unescapeChar : Char → Option Char
  | '"' => some '"'
  | '\\' => some '\\'
  | '/' => some '/'
  | 'b' => some (Char.ofNat 8)
  | 'f' => some (Char.ofNat 12)
  | 'n' => some '\n'
  | 'r' => some '\r'
  | 't' => some '\t'
  | _ => none

/-- Body of a JSON string after the opening quote: the decoded characters
and the text after the closing quote.  Surrogate-pair escapes are combined
into one character; an unpaired surrogate escape is rejected (Python's
`json.load` would produce a lone-surrogate `str`, which has no counterpart
in Lean's `Char`), as is a raw control character (`strict=True`). -/
def parseStrAux : List Char → Except String (List Char × List Char)
  | [] => .error "unterminated string"
  | '"' :: rest => .ok ([], rest)
  | '\\' :: 'u' :: a :: b :: c :: d :: rest =>
    (match hex4 a b c d with
     | none => .error "invalid hex escape"
     | some n =>
       if 55296 ≤ n ∧ n ≤ 56319 then
         (match rest with
          | '\\' :: 'u' :: a2 :: b2 :: c2 :: d2 :: rest2 =>
            (match hex4 a2 b2 c2 d2 with
             | none => .error "invalid hex escape"
             | some m =>
               if 56320 ≤ m ∧ m ≤ 57343 then
                 (match parseStrAux rest2 with
                  | .ok (s, r) =>
                    .ok (Char.ofNat (65536 + (n - 55296) * 1024 + (m - 56320)) :: s, r)
                  | .error e => .error e)
               else .error "unpaired surrogate escape")
          | _ => .error "unpaired surrogate escape")
       else if 56320 ≤ n ∧ n ≤ 57343 then .error "unpaired surrogate escape"
       else
         (match parseStrAux rest with
          | .ok (s, r) => .ok (Char.ofNat n :: s, r)
          | .error e => .error e))
  | '\\' :: e :: rest =>
    (match unescapeChar e with
     | some ch =>
       (match parseStrAux rest with
        | .ok (s, r) => .ok (ch :: s, r)
        | .error e2 => .error e2)
     | none => .error "invalid escape")
  | c :: rest =>
    if c.toNat < 32 then .error "control character in string"
    else
      (match parseStrAux rest with
       | .ok (s, r) => .ok (c :: s, r)
       | .error e => .error e)

/-- The digit run of an integer literal of sign `neg`.  A following `.`,
`e` or `E` would make it a float, which the model does not cover, so it is
rejected rather than misread; `json.load` is stricter only about leading
zeros, which never occur in dumped output. -/
def parseNumMag (neg : Bool) (cs : List Char) : Except String (J × List Char) :=
  let ds := cs.takeWhile isDigitB
  let rest := cs.dropWhile isDigitB
  if ds = [] then .error "invalid number"
  else if rest.head? = some '.' ∨ rest.head? = some 'e' ∨ rest.head? = some 'E' then
    .error "float literals are outside the model"
  else
    let n : Nat := ds.foldl (fun a c => a * 10 + (c.toNat - 48)) 0
    .ok (J.num (if neg then -(n : Int) else (n : Int)), rest)

/-- A JSON integer literal: an optional minus sign and a nonempty digit
run. -/
def parseNumber : List Char → Except String (J × List Char)
  | '-' :: rest => parseNumMag true rest
  | cs => parseNumMag false cs

/-- Python `dict(pairs)`: insert the parsed members left to right; a
repeated key keeps its first position and takes its last value. -/
def dictOfPairs (pairs : List (String × J)) : List (String × J) :=
  pairs.foldl (fun d kv => setKey d kv.1 kv.2) []

/-- The elements of a non-empty array after its `[`: one value, then either
a comma and more elements or the closing bracket.  The value parser is a
parameter (the caller passes `parseV fuel`), so the recursion is structural
on this function's own fuel. -/
def parseArrayTail (pv : List Char → Except String (J × List Char)) :
    Nat → List Char → Except String (List J × List Char)
  | 0, _ => .error "parser fuel exhausted"
  | fuel + 1, cs =>
    match pv cs with
    | .error e => .error e
    | .ok (v, rest) =>
      match skipWs rest with
      | ',' :: rest2 =>
        (match parseArrayTail pv fuel rest2 with
         | .ok (vs, rest3) => .ok (v :: vs, rest3)
         | .error e => .error e)
      | ']' :: rest2 => .ok ([v], rest2)
      | _ => .error "expected comma or closing bracket"

/-- The members of a non-empty object after its opening brace: a string
key, a colon, a value, then either a comma and more members or the closing
brace. -/
def parseObjTail (pv : List Char → Except String (J × List Char)) :
    Nat → List Char → Except String (List (String × J) × List Char)
  | 0, _ => .error "parser fuel exhausted"
  | fuel + 1, cs =>
    match skipWs cs with
    | '"' :: r =>
      (match parseStrAux r with
       | .error e => .error e
       | .ok (k, r1) =>
         match skipWs r1 with
         | ':' :: r2 =>
           (match pv r2 with
            | .error e => .error e
            | .ok (v, r3) =>
              match skipWs r3 with
              | ',' :: r4 =>
                (match parseObjTail pv fuel r4 with
                 | .ok (kvs, r5) => .ok ((String.mk k, v) :: kvs, r5)
                 | .error e => .error e)
              | '\x7d' :: r4 => .ok ([(String.mk k, v)], r4)
              | _ => .error "expected comma or closing brace")
         | _ => .error "expected colon")
    | _ => .error "expected string key"

/-- One JSON value and the remaining text.  Fuel bounds the number of
parsed values; `jsize` of the result never exceeds the input length, so the
fuel `json_load` passes always suffices. -/
def parseV : Nat → List Char → Except String (J × List Char)
  | 0, _ => .error "parser fuel exhausted"
  | fuel + 1, cs =>
    match skipWs cs with
    | 'n' :: 'u' :: 'l' :: 'l' :: rest => .ok (.null, rest)
    | 't' :: 'r' :: 'u' :: 'e' :: rest => .ok (.bool true, rest)
    | 'f' :: 'a' :: 'l' :: 's' :: 'e' :: rest => .ok (.bool false, rest)
    | '"' :: rest =>
      (match parseStrAux rest with
       | .ok (s, rest2) => .ok (.str (String.mk s), rest2)
       | .error e => .error e)
    | '[' :: rest =>
      (match skipWs rest with
       | ']' :: rest2 => .ok (.arr [], rest2)
       | rest2 =>
         match parseArrayTail (parseV fuel) fuel rest2 with
         | .ok (xs, rest3) => .ok (.arr xs, rest3)
         | .error e => .error e)
    | '\x7b' :: rest =>
      (match skipWs rest with
       | '\x7d' :: rest2 => .ok (.obj [], rest2)
       | rest2 =>
         match parseObjTail (parseV fuel) fuel rest2 with
         | .ok (kvs, rest3) => .ok (.obj (dictOfPairs kvs), rest3)
         | .error e => .error e)
    | c :: rest =>
      if c = '-' || isDigitB c then parseNumber (c :: rest)
      else .error "unexpected character"
    | [] => .error "unexpected end of input"

/-- `json.load(file)` on the file's full text: one value, then only
whitespace to the end. -/
def json_load (s : String) : Except String J :=
  match parseV (s.length + 1) s.data with
  | .error e => .error e
  | .ok (v, rest) => if skipWs rest = [] then .ok v else .error "Extra data"

/-- Python `str()` of a JSON value, as interpolated into the constructor's
error message: numbers in decimal, `None`/`True`/`False` for the
constants, a string as its characters.  The `repr`-style rendering of
containers is not modelled further (no claim depends on it). -/
def jShow : J → String
  | .null => "None"
  | .bool b => if b then "True" else "False"
  | .num n => String.mk (intToChars n)
  | .str s => s
  | .arr _ => "<list>"
  | .obj _ => "<dict>"

/-- `__SUPPORTED_PACKAGE_RESOLVED_VERSION`. -/
def supportedVersion : Int := 1

/-- `PackageResolvedFile.__init__` on the file's text: parse it, read
`self.packages['version']`, and reject any version that is not `==` the
supported constant with the source's message (which interpolates the path
and both versions).  On success the handle holds the parsed document. -/
def construct (path : String) (content : String) : Except String PackageResolvedFile :=
  match json_load content with
  | .error e => .error e
  | .ok packages =>
    match jIndex packages "version" with
    | .error e => .error e
    | .ok version =>
      if pyEq version (J.num supportedVersion) then
        .ok ⟨path, packages⟩
      else
        .error (path ++ " uses version " ++ jShow version ++
          " but `package_resolved.py` supports version " ++
          jShow (J.num supportedVersion) ++ ". Update `package_resolved.py` to new format.")

/-! ### Derived forms used to state the claims -/

/-- Whether a pin's `package` field exists and compares `==` to `name` (the
comprehension's filter in `__get_package`). -/
def pinNameMatches (p : J) (name : String) : Bool :=
  match jIndex p "package" with
  | .ok pkg => pyEq pkg (J.str name)
  | .error _ => false

/-- The state object after `update_dependency`'s three assignments. -/
def newStateKvs (kvs : List (String × J)) (nb nr nv : J) : List (String × J) :=
  setKey (setKey (setKey kvs "branch" nb) "revision" nr) "version" nv

/-- The whole document after `update_dependency` rewrites pin `i`'s state
along the access path `packages['object']['pins'][i]['state']`. -/
def updatedDoc (topKvs objKvs : List (String × J)) (pins : List J) (i : Nat)
    (pinKvs kvs : List (String × J)) (nb nr nv : J) : J :=
  J.obj (setKey topKvs "object" (J.obj (setKey objKvs "pins"
    (J.arr (pins.set i (J.obj (setKey pinKvs "state"
      (J.obj (newStateKvs kvs nb nr nv)))))))))

/-- What may follow a serialized number so that the parser stops exactly at
its end: nothing, or a character that neither continues the digit run nor
turns it into a float literal. -/
def numStop : List Char → Prop
  | [] => True
  | c :: _ => isDigitB c = false ∧ c ≠ '.' ∧ c ≠ 'e' ∧ c ≠ 'E'

/-- The text `parseArrayTail` sees at the start of each iteration over the
serialized items of a non-empty array: the current item, then either the
comma-newline-indent separator and the remaining items, or the closing
newline, indentation and bracket. -/
def arrItemsText : List J → Nat → Nat → List Char → List Char
  | [], _, _, rest => ']' :: rest
  | [x], ind, indC, rest => serJ x ind ++ ('\n' :: (pad indC ++ (']' :: rest)))
  | x :: y :: xs, ind, indC, rest =>
    serJ x ind ++ (',' :: '\n' :: (pad ind ++ arrItemsText (y :: xs) ind indC rest))

/-- The object analogue of `arrItemsText`: `"key": value` member texts. -/
def objMembersText : List (String × J) → Nat → Nat → List Char → List Char
  | [], _, _, rest => '\x7d' :: rest
  | [kv], ind, indC, rest =>
    serStrChars kv.1 ++ (':' :: ' ' ::
      (serJ kv.2 ind ++ ('\n' :: (pad indC ++ ('\x7d' :: rest)))))
  | kv :: kw :: kvs, ind, indC, rest =>
    serStrChars kv.1 ++ (':' :: ' ' ::
      (serJ kv.2 ind ++ (',' :: '\n' ::
        (pad ind ++ objMembersText (kw :: kvs) ind indC rest))))

/-! ### Concrete documents for the witnesses -/

/-- A resolution state `{branch: null, revision: null, version: "1.0.0"}`. -/
def sampleState : List (String × J) :=
  [("branch", J.null), ("revision", J.null), ("version", J.str "1.0.0")]

/-- A pin named `X`. -/
def samplePin : J :=
  J.obj [("package", J.str "X"),
         ("repositoryURL", J.str "https://github.com/DataDog/dd-sdk-ios"),
         ("state", J.obj sampleState)]

/-- A second pin, named `Y`. -/
def samplePin2 : J :=
  J.obj [("package", J.str "Y"),
         ("repositoryURL", J.str "https://github.com/DataDog/other"),
         ("state", J.obj [("branch", J.str "main"), ("revision", J.null),
                          ("version", J.null)])]

/-- A well-formed two-pin document of the supported format version. -/
def sampleDoc : J :=
  J.obj [("version", J.num 1),
         ("object", J.obj [("pins", J.arr [samplePin, samplePin2])])]

/-- A loaded handle on `sampleDoc`. -/
def sampleFile : PackageResolvedFile := ⟨"Package.resolved", sampleDoc⟩

/-- `sampleDoc` with an unsupported format version. -/
def sampleDocV2 : J :=
  J.obj [("version", J.num 2),
         ("object", J.obj [("pins", J.arr [samplePin])])]

/-- A second pin also named `X` (a latent duplicate), with a different
state, to exercise the first-match rule. -/
def samplePinDup : J :=
  J.obj [("package", J.str "X"),
         ("repositoryURL", J.str "https://github.com/DataDog/duplicate"),
         ("state", J.obj [("branch", J.str "dup"), ("revision", J.null),
                          ("version", J.null)])]

/-- A document whose two pins share the name `X`. -/
def sampleDocDup : J :=
  J.obj [("version", J.num 1),
         ("object", J.obj [("pins", J.arr [samplePin, samplePinDup])])]

/-- A state object carrying an extra key beyond the three standard ones. -/
def sampleStateExtra : List (String × J) :=
  [("branch", J.null), ("revision", J.null), ("version", J.str "2.0.0"),
   ("checksum", J.str "deadbeef")]

/-- A pin named `W` whose state has the extra key. -/
def samplePinExtra : J :=
  J.obj [("package", J.str "W"),
         ("repositoryURL", J.str "https://github.com/DataDog/extra"),
         ("state", J.obj sampleStateExtra)]

/-- A document holding `samplePinExtra` (plus `samplePin2`), for the frame
witness. -/
def sampleDocExtra : J :=
  J.obj [("version", J.num 1),
         ("object", J.obj [("pins", J.arr [samplePinExtra, samplePin2])])]

/-- A loaded handle on `sampleDocExtra`. -/
def sampleFileExtra : PackageResolvedFile := ⟨"Package.resolved", sampleDocExtra⟩

/-- The number of leading spaces of a character list (the indentation of a
line, when the list is the text following a newline). -/
def leadSpaces : List Char → Nat
  | [] => 0
  | c :: t => if c = ' ' then leadSpaces t + 1 else 0

/-- Whether every run of spaces that immediately follows a raw newline has
even length — true of text indented in two-space steps, as
`json.dump(indent=2)` writes it (raw newlines occur only as the separators
the serializer emits; newlines inside strings are escaped). -/
def nlRunsEven : List Char → Bool
  | [] => true
  | c :: t => (if c = '\n' then leadSpaces t % 2 == 0 else true) && nlRunsEven t

/-! ### Association-list facts -/

theorem lookupKey_setKey_self (l : List (String × J)) (k : String) (v : J) :
    lookupKey (setKey l k v) k = some v := by
  induction l with
  | nil => simp [setKey, lookupKey]
  | cons kv rest ih =>
    obtain ⟨k1, w⟩ := kv
    by_cases h : k1 = k
    · simp [setKey, h, lookupKey]
    · simp [setKey, h, lookupKey, ih]

theorem lookupKey_setKey_ne (l : List (String × J)) (k k2 : String) (v : J)
    (h : k2 ≠ k) : lookupKey (setKey l k v) k2 = lookupKey l k2 := by
  induction l with
  | nil => simp [setKey, lookupKey, Ne.symm h]
  | cons kv rest ih =>
    obtain ⟨k1, w⟩ := kv
    by_cases h1 : k1 = k
    · subst h1
      simp [setKey, lookupKey, Ne.symm h]
    · simp only [setKey, if_neg h1, lookupKey]
      by_cases h2 : k1 = k2
      · simp [h2]
      · simp [h2, ih]

theorem setKey_of_lookup_eq (l : List (String × J)) (k : String) (v : J)
    (h : lookupKey l k = some v) : setKey l k v = l := by
  induction l with
  | nil => simp [lookupKey] at h
  | cons kv rest ih =>
    obtain ⟨k1, w⟩ := kv
    by_cases h1 : k1 = k
    · subst h1
      simp [lookupKey] at h
      simp [setKey, h]
    · simp [lookupKey, h1] at h
      simp [setKey, h1, ih h]

theorem lookupKey_mem_of_nodup (l : List (String × J)) (kv : String × J)
    (hn : nodupKeysB (l.map Prod.fst) = true) (hm : kv ∈ l) :
    lookupKey l kv.1 = some kv.2 := by
  induction l with
  | nil => cases hm
  | cons kw rest ih =>
    simp only [List.map_cons, nodupKeysB, Bool.and_eq_true] at hn
    obtain ⟨hn1, hn2⟩ := hn
    cases hm with
    | head => simp [lookupKey]
    | tail _ hm2 =>
      have hk : kw.1 ≠ kv.1 := by
        intro he
        have hmem : kw.1 ∈ rest.map Prod.fst := by
          rw [he]
          exact List.mem_map_of_mem Prod.fst hm2
        have hc := List.elem_eq_true_of_mem hmem
        rw [hc] at hn1
        simp at hn1
      simp [lookupKey, hk, ih hn2 hm2]

/-! ### `List.set`/`List.getD` facts -/

theorem getD_set_self {α : Type} (l : List α) (i : Nat) (a d : α)
    (h : i < l.length) : (l.set i a).getD i d = a := by
  induction l generalizing i with
  | nil => simp at h
  | cons x xs ih =>
    cases i with
    | zero => simp [List.set]
    | succ j =>
      simp only [List.length_cons, Nat.succ_lt_succ_iff] at h
      exact ih j h

theorem getD_set_ne {α : Type} (l : List α) (i j : Nat) (a d : α)
    (h : j ≠ i) : (l.set i a).getD j d = l.getD j d := by
  induction l generalizing i j with
  | nil => simp [List.set]
  | cons x xs ih =>
    cases i with
    | zero =>
      cases j with
      | zero => exact absurd rfl h
      | succ j2 => simp [List.set, List.getD_cons_succ]
    | succ i2 =>
      cases j with
      | zero => simp [List.set]
      | succ j2 =>
        simp only [List.set, List.getD_cons_succ]
        exact ih i2 j2 (fun hh => h (by rw [hh]))

theorem set_of_getD_eq {α : Type} (l : List α) (i : Nat) (a d : α)
    (hlen : i < l.length) (h : l.getD i d = a) : l.set i a = l := by
  induction l generalizing i with
  | nil => simp at hlen
  | cons x xs ih =>
    cases i with
    | zero =>
      simp only [List.getD_cons_zero] at h
      simp [List.set, h]
    | succ j =>
      simp only [List.length_cons, Nat.succ_lt_succ_iff] at hlen
      simp only [List.getD_cons_succ] at h
      simp [List.set, ih j hlen h]

/-! ### `jsize` bounds for strong induction -/

theorem jsize_pos : ∀ v : J, 0 < jsize v
  | .null => by simp [jsize]
  | .bool _ => by simp [jsize]
  | .num _ => by simp [jsize]
  | .str _ => by simp [jsize]
  | .arr _ => by simp [jsize]
  | .obj _ => by simp [jsize]

theorem jsizeL_lt_of_mem (xs : List J) (x : J) (h : x ∈ xs) :
    jsize x < jsizeL xs := by
  induction xs with
  | nil => cases h
  | cons y ys ih =>
    cases h with
    | head => simp [jsizeL]; omega
    | tail _ h2 => have := ih h2; simp [jsizeL]; omega

theorem jsizeF_lt_of_mem (kvs : List (String × J)) (kv : String × J)
    (h : kv ∈ kvs) : jsize kv.2 < jsizeF kvs := by
  induction kvs with
  | nil => cases h
  | cons kw kws ih =>
    cases h with
    | head => simp [jsizeF]; omega
    | tail _ h2 => have := ih h2; simp [jsizeF]; omega

/-! ### `uniqKeysJ` projections -/

theorem uniqKeysL_mem (xs : List J) (x : J) (hu : uniqKeysL xs = true)
    (hm : x ∈ xs) : uniqKeysJ x = true := by
  induction xs with
  | nil => cases hm
  | cons y ys ih =>
    simp only [uniqKeysL, Bool.and_eq_true] at hu
    cases hm with
    | head => exact hu.1
    | tail _ h2 => exact ih hu.2 h2

theorem uniqKeysF_mem (kvs : List (String × J)) (kv : String × J)
    (hu : uniqKeysF kvs = true) (hm : kv ∈ kvs) : uniqKeysJ kv.2 = true := by
  induction kvs with
  | nil => cases hm
  | cons kw kws ih =>
    simp only [uniqKeysF, Bool.and_eq_true] at hu
    cases hm with
    | head => exact hu.1
    | tail _ h2 => exact ih hu.2 h2

/-! ### Reflexivity of Python `==` on duplicate-free values -/

theorem pyEqL_refl_of (xs : List J) (h : ∀ x ∈ xs, pyEq x x = true) :
    pyEqL xs xs = true := by
  induction xs with
  | nil => simp [pyEqL]
  | cons y ys ih =>
    simp only [pyEqL, Bool.and_eq_true]
    exact ⟨h y (List.mem_cons_self y ys), ih (fun x hx => h x (List.mem_cons_of_mem y hx))⟩

theorem pyEqF_of_lookup (l kws : List (String × J))
    (h : ∀ kv ∈ l, ∃ w, lookupKey kws kv.1 = some w ∧ pyEq kv.2 w = true) :
    pyEqF l kws = true := by
  induction l with
  | nil => simp [pyEqF]
  | cons kv rest ih =>
    obtain ⟨k, v⟩ := kv
    obtain ⟨w, hw, hpe⟩ := h (k, v) (List.mem_cons_self _ _)
    simp only [pyEqF, Bool.and_eq_true, hw, hpe]
    exact ⟨trivial, ih (fun kv2 h2 => h kv2 (List.mem_cons_of_mem _ h2))⟩

theorem pyEq_refl_size : ∀ n : Nat, ∀ a : J, jsize a ≤ n → uniqKeysJ a = true →
    pyEq a a = true := by
  intro n
  induction n with
  | zero => intro a ha; have := jsize_pos a; omega
  | succ m ih =>
    intro a ha hu
    cases a with
    | null => simp [pyEq]
    | bool b => simp [pyEq]
    | num i => simp [pyEq]
    | str s => simp [pyEq]
    | arr xs =>
      simp only [pyEq, Bool.and_eq_true, beq_iff_eq]
      refine ⟨by simp, pyEqL_refl_of xs (fun x hx => ?_)⟩
      have h1 := jsizeL_lt_of_mem xs x hx
      have h2 : jsize (J.arr xs) = 1 + jsizeL xs := by simp [jsize]
      exact ih x (by omega) (uniqKeysL_mem xs x (by simpa [uniqKeysJ] using hu) hx)
    | obj kvs =>
      simp only [uniqKeysJ, Bool.and_eq_true] at hu
      simp only [pyEq, Bool.and_eq_true, beq_iff_eq]
      refine ⟨by simp, pyEqF_of_lookup kvs kvs (fun kv hkv => ?_)⟩
      refine ⟨kv.2, lookupKey_mem_of_nodup kvs kv hu.1 hkv, ?_⟩
      have h1 := jsizeF_lt_of_mem kvs kv hkv
      have h2 : jsize (J.obj kvs) = 1 + jsizeF kvs := by simp [jsize]
      exact ih kv.2 (by omega) (uniqKeysF_mem kvs kv hu.2 hkv)

theorem pyEq_refl (a : J) (hu : uniqKeysJ a = true) : pyEq a a = true :=
  pyEq_refl_size (jsize a) a le_rfl hu

theorem itemsDiffEmpty_refl (l : List (String × J)) (hu : uniqKeysF l = true) :
    itemsDiffEmpty l l = true := by
  have h : ∀ kv ∈ l, pairMemB kv l = true := by
    intro kv hkv
    simp only [pairMemB, List.any_eq_true]
    exact ⟨kv, hkv, by simp [pyEq_refl kv.2 (uniqKeysF_mem l kv hu hkv)]⟩
  simp only [itemsDiffEmpty, Bool.and_eq_true, List.all_eq_true]
  exact ⟨h, h⟩

/-! ### The pin lookup: first match wins, and rewriting a pin's state does
not change which pin matches -/

theorem matchIndicesAux_first :
    ∀ (pins : List J) (name : String) (s i : Nat) (restIdx : List Nat),
      matchIndicesAux pins name s = .ok (i :: restIdx) →
      s ≤ i ∧ i - s < pins.length ∧
        pinNameMatches (pins.getD (i - s) J.null) name = true ∧
        ∀ j, j < i - s → pinNameMatches (pins.getD j J.null) name = false := by
  intro pins
  induction pins with
  | nil => intro name s i restIdx h; simp [matchIndicesAux] at h
  | cons p ps ih =>
    intro name s i restIdx h
    simp only [matchIndicesAux] at h
    cases hjk : jIndex p "package" with
    | error e => simp [hjk] at h
    | ok pkg =>
      simp only [hjk] at h
      cases hmt : matchIndicesAux ps name (s + 1) with
      | error e => simp [hmt] at h
      | ok tail =>
        simp only [hmt] at h
        by_cases hpe : pyEq pkg (J.str name) = true
        · rw [if_pos hpe] at h
          obtain ⟨hsi, htail⟩ : s = i ∧ tail = restIdx := by
            cases h; exact ⟨rfl, rfl⟩
          subst hsi
          refine ⟨le_rfl, by simp, ?_, ?_⟩
          · simp [pinNameMatches, hjk, hpe]
          · intro j hj; omega
        · rw [if_neg hpe] at h
          have htail : tail = i :: restIdx := by cases h; rfl
          subst htail
          obtain ⟨h1, h2, h3, h4⟩ := ih name (s + 1) i restIdx hmt
          have hs : s ≤ i := by omega
          obtain ⟨k, hk⟩ : ∃ k, i - s = k + 1 := ⟨i - s - 1, by omega⟩
          have hk2 : i - (s + 1) = k := by omega
          rw [hk2] at h3 h4
          refine ⟨hs, by simp; omega, ?_, ?_⟩
          · rw [hk]
            simpa using h3
          · intro j hj
            cases j with
            | zero =>
              simp only [List.getD_cons_zero]
              simp [pinNameMatches, hjk]
              exact Bool.of_not_eq_true hpe
            | succ j2 =>
              simp only [List.getD_cons_succ]
              exact h4 j2 (by omega)

theorem matchIndicesAux_set :
    ∀ (pins : List J) (i0 : Nat) (newPin : J) (name : String) (s : Nat),
      i0 < pins.length →
      jIndex newPin "package" = jIndex (pins.getD i0 J.null) "package" →
      matchIndicesAux (pins.set i0 newPin) name s = matchIndicesAux pins name s := by
  intro pins
  induction pins with
  | nil => intro i0 newPin name s h; simp at h
  | cons p ps ih =>
    intro i0 newPin name s hlen hpkg
    cases i0 with
    | zero =>
      simp only [List.getD_cons_zero] at hpkg
      simp only [List.set, matchIndicesAux, hpkg]
    | succ k =>
      simp only [List.length_cons, Nat.succ_lt_succ_iff] at hlen
      simp only [List.getD_cons_succ] at hpkg
      simp only [List.set, matchIndicesAux, ih k newPin name (s + 1) hlen hpkg]

/-! ### Evaluating `update_go` and `read_dependency` on a well-shaped
document -/

theorem update_go_eq (topKvs objKvs : List (String × J)) (pins : List J)
    (i : Nat) (restIdx : List Nat) (pinKvs kvs : List (String × J))
    (path name : String) (nb nr nv : J)
    (hobj : lookupKey topKvs "object" = some (J.obj objKvs))
    (hpins : lookupKey objKvs "pins" = some (J.arr pins))
    (hmi : matchIndicesAux pins name 0 = .ok (i :: restIdx))
    (hpin : pins.getD i J.null = J.obj pinKvs)
    (hstate : lookupKey pinKvs "state" = some (J.obj kvs)) :
    update_go (J.obj topKvs) path name nb nr nv =
      .ok (updatedDoc topKvs objKvs pins i pinKvs kvs nb nr nv,
        if itemsDiffEmpty kvs (newStateKvs kvs nb nr nv) then
          UpdateNotice.upToDate name
        else
          UpdateNotice.updated name kvs (newStateKvs kvs nb nr nv)) := by
  simp only [update_go, hobj, hpins, hmi, hpin, hstate, updatedDoc, newStateKvs]

theorem read_dependency_eq (f : PackageResolvedFile)
    (topKvs objKvs : List (String × J)) (pins : List J)
    (i : Nat) (restIdx : List Nat) (pinKvs kvs : List (String × J)) (name : String)
    (hp : f.packages = J.obj topKvs)
    (hobj : lookupKey topKvs "object" = some (J.obj objKvs))
    (hpins : lookupKey objKvs "pins" = some (J.arr pins))
    (hmi : matchIndicesAux pins name 0 = .ok (i :: restIdx))
    (hpin : pins.getD i J.null = J.obj pinKvs)
    (hstate : lookupKey pinKvs "state" = some (J.obj kvs)) :
    read_dependency f name = .ok (J.obj kvs) := by
  simp only [read_dependency, get_package, getPins, hp, hobj, hpins, hmi, hpin,
    jIndex, hstate]

theorem read_dependency_updatedDoc
    (topKvs objKvs : List (String × J)) (pins : List J)
    (i : Nat) (restIdx : List Nat) (pinKvs kvs : List (String × J))
    (path name : String) (nb nr nv : J)
    (hmi : matchIndicesAux pins name 0 = .ok (i :: restIdx))
    (hpin : pins.getD i J.null = J.obj pinKvs)
    (hlen : i < pins.length) :
    read_dependency ⟨path, updatedDoc topKvs objKvs pins i pinKvs kvs nb nr nv⟩ name =
      .ok (J.obj (newStateKvs kvs nb nr nv)) := by
  have hne : ("package" : String) ≠ "state" := by decide
  have hmi2 : matchIndicesAux
      (pins.set i (J.obj (setKey pinKvs "state" (J.obj (newStateKvs kvs nb nr nv)))))
      name 0 = .ok (i :: restIdx) := by
    rw [matchIndicesAux_set pins i _ name 0 hlen
      (by rw [hpin]; simp [jIndex, lookupKey_setKey_ne pinKvs "state" "package" _ hne])]
    exact hmi
  simp only [read_dependency, get_package, getPins, updatedDoc,
    lookupKey_setKey_self, hmi2, getD_set_self pins i _ J.null hlen, jIndex]

/-- Inversion: a successful `update_go` pins down the document's shape and
the resulting document. -/
theorem update_go_ok (packages : J) (path name : String) (nb nr nv : J)
    (newDoc : J) (notice : UpdateNotice)
    (h : update_go packages path name nb nr nv = .ok (newDoc, notice)) :
    ∃ topKvs objKvs pins i restIdx pinKvs kvs,
      packages = J.obj topKvs ∧
      lookupKey topKvs "object" = some (J.obj objKvs) ∧
      lookupKey objKvs "pins" = some (J.arr pins) ∧
      matchIndicesAux pins name 0 = .ok (i :: restIdx) ∧
      pins.getD i J.null = J.obj pinKvs ∧
      lookupKey pinKvs "state" = some (J.obj kvs) ∧
      newDoc = updatedDoc topKvs objKvs pins i pinKvs kvs nb nr nv := by
  cases packages with
  | null => simp [update_go] at h
  | bool b => simp [update_go] at h
  | num n => simp [update_go] at h
  | str s => simp [update_go] at h
  | arr xs => simp [update_go] at h
  | obj topKvs =>
    refine ⟨topKvs, ?_⟩
    simp only [update_go] at h
    cases ho : lookupKey topKvs "object" with
    | none => simp [ho] at h
    | some v =>
      cases v with
      | obj objKvs =>
        simp only [ho] at h
        cases hpn : lookupKey objKvs "pins" with
        | none => simp [hpn] at h
        | some w =>
          cases w with
          | arr pins =>
            simp only [hpn] at h
            cases hmi : matchIndicesAux pins name 0 with
            | error e => simp [hmi] at h
            | ok idxs =>
              cases idxs with
              | nil => simp [hmi] at h
              | cons i restIdx =>
                simp only [hmi] at h
                cases hpin : pins.getD i J.null with
                | obj pinKvs =>
                  first
                  | simp only [hpin] at h
                  | (rw [List.getD_eq_getElem?_getD] at hpin
                     simp only [hpin] at h
                     rw [← List.getD_eq_getElem?_getD] at hpin)
                  cases hst : lookupKey pinKvs "state" with
                  | none => simp [hst] at h
                  | some st =>
                    cases st with
                    | obj kvs =>
                      simp only [hst] at h
                      refine ⟨objKvs, pins, i, restIdx, pinKvs, kvs, rfl, rfl, hpn,
                        hmi, hpin, hst, ?_⟩
                      simp only [Except.ok.injEq, Prod.mk.injEq] at h
                      rw [← h.1]
                      simp [updatedDoc, newStateKvs]
                    | null => simp [hst] at h
                    | bool b => simp [hst] at h
                    | num n => simp [hst] at h
                    | str s => simp [hst] at h
                    | arr ys => simp [hst] at h
                | null =>
                  rw [List.getD_eq_getElem?_getD] at hpin
                  simp [hpin] at h
                | bool b =>
                  rw [List.getD_eq_getElem?_getD] at hpin
                  simp [hpin] at h
                | num n =>
                  rw [List.getD_eq_getElem?_getD] at hpin
                  simp [hpin] at h
                | str s =>
                  rw [List.getD_eq_getElem?_getD] at hpin
                  simp [hpin] at h
                | arr ys =>
                  rw [List.getD_eq_getElem?_getD] at hpin
                  simp [hpin] at h
          | null => simp [hpn] at h
          | bool b => simp [hpn] at h
          | num n => simp [hpn] at h
          | str s => simp [hpn] at h
          | obj zs => simp [hpn] at h
      | null => simp [ho] at h
      | bool b => simp [ho] at h
      | num n => simp [ho] at h
      | str s => simp [ho] at h
      | arr ys => simp [ho] at h

/-! ### The claims -/

/-- C1: on a loaded document whose pins include one named `name`,
`update_dependency` succeeds, unconditionally overwrites the matched pin
state's `branch`, `revision` and `version` with the given values (the
document becomes `updatedDoc`), and a subsequent `read_dependency` of the
same name returns exactly that triple. -/
theorem update_overwrites_and_read_returns_triple
    (f : PackageResolvedFile) (name : String) (nb nr nv : J)
    (topKvs objKvs : List (String × J)) (pins : List J)
    (i : Nat) (restIdx : List Nat) (pinKvs kvs : List (String × J))
    (hp : f.packages = J.obj topKvs)
    (hobj : lookupKey topKvs "object" = some (J.obj objKvs))
    (hpins : lookupKey objKvs "pins" = some (J.arr pins))
    (hmi : matchIndicesAux pins name 0 = .ok (i :: restIdx))
    (hpin : pins.getD i J.null = J.obj pinKvs)
    (hstate : lookupKey pinKvs "state" = some (J.obj kvs)) :
    (update_dependency f name nb nr nv).1 =
      ⟨f.path, updatedDoc topKvs objKvs pins i pinKvs kvs nb nr nv⟩ ∧
    (∃ notice, (update_dependency f name nb nr nv).2 = .ok notice) ∧
    read_dependency (update_dependency f name nb nr nv).1 name =
      .ok (J.obj (newStateKvs kvs nb nr nv)) ∧
    lookupKey (newStateKvs kvs nb nr nv) "branch" = some nb ∧
    lookupKey (newStateKvs kvs nb nr nv) "revision" = some nr ∧
    lookupKey (newStateKvs kvs nb nr nv) "version" = some nv := by
  have hgo := update_go_eq topKvs objKvs pins i restIdx pinKvs kvs f.path name
    nb nr nv hobj hpins hmi hpin hstate
  have hupd : update_dependency f name nb nr nv =
      (⟨f.path, updatedDoc topKvs objKvs pins i pinKvs kvs nb nr nv⟩,
       .ok (if itemsDiffEmpty kvs (newStateKvs kvs nb nr nv) then
              UpdateNotice.upToDate name
            else UpdateNotice.updated name kvs (newStateKvs kvs nb nr nv))) := by
    simp only [update_dependency, hp, hgo]
  have hlen : i < pins.length := by
    have := (matchIndicesAux_first pins name 0 i restIdx hmi).2.1
    omega
  refine ⟨by rw [hupd], ⟨_, by rw [hupd]⟩, ?_, ?_, ?_, ?_⟩
  · rw [hupd]
    exact read_dependency_updatedDoc topKvs objKvs pins i restIdx pinKvs kvs
      f.path name nb nr nv hmi hpin hlen
  · simp only [newStateKvs]
    rw [lookupKey_setKey_ne _ "version" "branch" _ (by decide),
      lookupKey_setKey_ne _ "revision" "branch" _ (by decide), lookupKey_setKey_self]
  · simp only [newStateKvs]
    rw [lookupKey_setKey_ne _ "version" "revision" _ (by decide), lookupKey_setKey_self]
  · simp only [newStateKvs]
    rw [lookupKey_setKey_self]

/-- Witness for C1, at the spec's own example: updating pin `X` (state
`{branch: null, revision: null, version: "1.0.0"}`) with
`("dogfooding", "abc123", None)` makes a subsequent read return
`{branch: "dogfooding", revision: "abc123", version: null}`. -/
theorem update_overwrites_and_read_returns_triple_witness :
    read_dependency
      (update_dependency sampleFile "X" (J.str "dogfooding") (J.str "abc123") J.null).1 "X" =
      .ok (J.obj [("branch", J.str "dogfooding"), ("revision", J.str "abc123"),
        ("version", J.null)]) := by
  have h := (update_overwrites_and_read_returns_triple sampleFile "X"
    (J.str "dogfooding") (J.str "abc123") J.null
    [("version", J.num 1), ("object", J.obj [("pins", J.arr [samplePin, samplePin2])])]
    [("pins", J.arr [samplePin, samplePin2])] [samplePin, samplePin2] 0 []
    [("package", J.str "X"),
     ("repositoryURL", J.str "https://github.com/DataDog/dd-sdk-ios"),
     ("state", J.obj sampleState)] sampleState
    (by decide) (by decide) (by decide) (by decide) (by decide) (by decide)).2.2.1
  have he : newStateKvs sampleState (J.str "dogfooding") (J.str "abc123") J.null =
      [("branch", J.str "dogfooding"), ("revision", J.str "abc123"),
       ("version", J.null)] := by decide
  rw [he] at h
  exact h

/-- C2: when no pin matches `name`, both `update_dependency` and
`read_dependency` fail with the pin-not-found message, which contains the
file path and the package name, and the handle's document is exactly the
one it started with. -/
theorem missing_pin_fails_and_leaves_document
    (f : PackageResolvedFile) (name : String) (nb nr nv : J)
    (topKvs objKvs : List (String × J)) (pins : List J)
    (hp : f.packages = J.obj topKvs)
    (hobj : lookupKey topKvs "object" = some (J.obj objKvs))
    (hpins : lookupKey objKvs "pins" = some (J.arr pins))
    (hmi : matchIndicesAux pins name 0 = .ok []) :
    update_dependency f name nb nr nv =
      (f, .error (f.path ++ " does not contain pin named \"" ++ name ++ "\"")) ∧
    read_dependency f name =
      .error (f.path ++ " does not contain pin named \"" ++ name ++ "\"") ∧
    f.path.data <:+:
      (f.path ++ " does not contain pin named \"" ++ name ++ "\"").data ∧
    name.data <:+:
      (f.path ++ " does not contain pin named \"" ++ name ++ "\"").data := by
  refine ⟨?_, ?_, ?_, ?_⟩
  · simp only [update_dependency, update_go, hp, hobj, hpins, hmi]
  · simp only [read_dependency, get_package, getPins, hp, hobj, hpins, hmi]
  · exact ⟨[], (" does not contain pin named \"" ++ name ++ "\"").data, by simp⟩
  · exact ⟨(f.path ++ " does not contain pin named \"").data, "\"".data, by simp⟩

/-- Witness for C2: asking for the absent pin `Z` fails both operations
with the message naming the path and `Z`, and returns the handle
unchanged. -/
theorem missing_pin_fails_and_leaves_document_witness :
    update_dependency sampleFile "Z" J.null J.null J.null =
      (sampleFile,
        .error ("Package.resolved" ++ " does not contain pin named \"" ++ "Z" ++ "\"")) ∧
    read_dependency sampleFile "Z" =
      .error ("Package.resolved" ++ " does not contain pin named \"" ++ "Z" ++ "\"") := by
  have h := missing_pin_fails_and_leaves_document sampleFile "Z" J.null J.null J.null
    [("version", J.num 1), ("object", J.obj [("pins", J.arr [samplePin, samplePin2])])]
    [("pins", J.arr [samplePin, samplePin2])] [samplePin, samplePin2]
    (by decide) (by decide) (by decide) (by decide)
  exact ⟨h.1, h.2.1⟩

/-- C4: `read_dependency` on an existing package returns the value of the
matched pin's current state; the returned value is a deep copy by value
semantics, so whatever the caller derives from it (`mutate`), a second read
of the unchanged handle still returns the original state. -/
theorem read_returns_independent_state_copy
    (f : PackageResolvedFile) (name : String)
    (topKvs objKvs : List (String × J)) (pins : List J)
    (i : Nat) (restIdx : List Nat) (pinKvs kvs : List (String × J))
    (hp : f.packages = J.obj topKvs)
    (hobj : lookupKey topKvs "object" = some (J.obj objKvs))
    (hpins : lookupKey objKvs "pins" = some (J.arr pins))
    (hmi : matchIndicesAux pins name 0 = .ok (i :: restIdx))
    (hpin : pins.getD i J.null = J.obj pinKvs)
    (hstate : lookupKey pinKvs "state" = some (J.obj kvs)) :
    read_dependency f name = .ok (J.obj kvs) ∧
    (∀ mutate : J → J, read_dependency f name = .ok (J.obj kvs)) := by
  have h := read_dependency_eq f topKvs objKvs pins i restIdx pinKvs kvs name
    hp hobj hpins hmi hpin hstate
  exact ⟨h, fun _ => h⟩

/-- Witness for C4: reading `X` returns its state, twice, whatever was
computed from the first result. -/
theorem read_returns_independent_state_copy_witness :
    read_dependency sampleFile "X" = .ok (J.obj sampleState) := by
  exact (read_returns_independent_state_copy sampleFile "X"
    [("version", J.num 1), ("object", J.obj [("pins", J.arr [samplePin, samplePin2])])]
    [("pins", J.arr [samplePin, samplePin2])] [samplePin, samplePin2] 0 []
    [("package", J.str "X"),
     ("repositoryURL", J.str "https://github.com/DataDog/dd-sdk-ios"),
     ("state", J.obj sampleState)] sampleState
    (by decide) (by decide) (by decide) (by decide) (by decide) (by decide)).1

/-- C7: calling `update_dependency` with the three values already stored in
the pin's state changes nothing — the handle is returned exactly as it was
— and the notice is "up-to-date" rather than "updated"; and in general the
up-to-date/updated distinction is decided by whether the symmetric
difference of the before/after state snapshots is empty. -/
theorem update_identical_values_up_to_date
    (f : PackageResolvedFile) (name : String) (nb nr nv : J)
    (topKvs objKvs : List (String × J)) (pins : List J)
    (i : Nat) (restIdx : List Nat) (pinKvs kvs : List (String × J))
    (hp : f.packages = J.obj topKvs)
    (hobj : lookupKey topKvs "object" = some (J.obj objKvs))
    (hpins : lookupKey objKvs "pins" = some (J.arr pins))
    (hmi : matchIndicesAux pins name 0 = .ok (i :: restIdx))
    (hpin : pins.getD i J.null = J.obj pinKvs)
    (hstate : lookupKey pinKvs "state" = some (J.obj kvs))
    (hb : lookupKey kvs "branch" = some nb)
    (hr : lookupKey kvs "revision" = some nr)
    (hv : lookupKey kvs "version" = some nv)
    (hu : uniqKeysF kvs = true) :
    update_dependency f name nb nr nv = (f, .ok (UpdateNotice.upToDate name)) ∧
    read_dependency (update_dependency f name nb nr nv).1 name =
      read_dependency f name ∧
    (∀ nb2 nr2 nv2 : J,
      (update_dependency f name nb2 nr2 nv2).2 =
        .ok (if itemsDiffEmpty kvs (newStateKvs kvs nb2 nr2 nv2) then
               UpdateNotice.upToDate name
             else UpdateNotice.updated name kvs (newStateKvs kvs nb2 nr2 nv2))) := by
  have hlen : i < pins.length := by
    have := (matchIndicesAux_first pins name 0 i restIdx hmi).2.1
    omega
  have hid : newStateKvs kvs nb nr nv = kvs := by
    simp only [newStateKvs, setKey_of_lookup_eq _ _ _ hb, setKey_of_lookup_eq _ _ _ hr,
      setKey_of_lookup_eq _ _ _ hv]
  have hdoc : updatedDoc topKvs objKvs pins i pinKvs kvs nb nr nv = J.obj topKvs := by
    rw [updatedDoc, hid, setKey_of_lookup_eq _ _ _ hstate,
      set_of_getD_eq pins i _ J.null hlen hpin,
      setKey_of_lookup_eq _ _ _ hpins, setKey_of_lookup_eq _ _ _ hobj]
  have hfe : (⟨f.path, J.obj topKvs⟩ : PackageResolvedFile) = f := by
    rw [← hp]
  have hgo := fun nb2 nr2 nv2 => update_go_eq topKvs objKvs pins i restIdx pinKvs
    kvs f.path name nb2 nr2 nv2 hobj hpins hmi hpin hstate
  have hupd : update_dependency f name nb nr nv = (f, .ok (UpdateNotice.upToDate name)) := by
    simp only [update_dependency, hp, hgo nb nr nv, hid, hdoc,
      itemsDiffEmpty_refl kvs hu, if_true, hfe]
  refine ⟨hupd, by rw [hupd], ?_⟩
  intro nb2 nr2 nv2
  simp only [update_dependency, hp, hgo nb2 nr2 nv2]

/-- Witness for C7: re-pinning `X` to the values it already has returns the
handle unchanged with the up-to-date notice. -/
theorem update_identical_values_up_to_date_witness :
    update_dependency sampleFile "X" J.null J.null (J.str "1.0.0") =
      (sampleFile, .ok (UpdateNotice.upToDate "X")) := by
  exact (update_identical_values_up_to_date sampleFile "X" J.null J.null
    (J.str "1.0.0")
    [("version", J.num 1), ("object", J.obj [("pins", J.arr [samplePin, samplePin2])])]
    [("pins", J.arr [samplePin, samplePin2])] [samplePin, samplePin2] 0 []
    [("package", J.str "X"),
     ("repositoryURL", J.str "https://github.com/DataDog/dd-sdk-ios"),
     ("state", J.obj sampleState)] sampleState
    (by decide) (by decide) (by decide) (by decide) (by decide) (by decide)
    (by decide) (by decide) (by decide) (by decide)).1

/-- C8: the lookup scans the pins in order — the returned index `i` is the
least one whose `package` field compares equal to the argument —
`get_package` yields exactly the pin at that index, and an update through
that lookup rewrites the owning document at exactly that index (the model
of the direct mutable reference the Python function returns). -/
theorem lookup_first_match_mutable_reference
    (f : PackageResolvedFile) (name : String)
    (topKvs objKvs : List (String × J)) (pins : List J)
    (i : Nat) (restIdx : List Nat)
    (hp : f.packages = J.obj topKvs)
    (hobj : lookupKey topKvs "object" = some (J.obj objKvs))
    (hpins : lookupKey objKvs "pins" = some (J.arr pins))
    (hmi : matchIndicesAux pins name 0 = .ok (i :: restIdx)) :
    pinNameMatches (pins.getD i J.null) name = true ∧
    (∀ j, j < i → pinNameMatches (pins.getD j J.null) name = false) ∧
    get_package f.packages f.path name = .ok (pins.getD i J.null) ∧
    (∀ (nb nr nv : J) (pinKvs kvs : List (String × J)),
      pins.getD i J.null = J.obj pinKvs →
      lookupKey pinKvs "state" = some (J.obj kvs) →
      (update_dependency f name nb nr nv).1.packages =
        updatedDoc topKvs objKvs pins i pinKvs kvs nb nr nv) := by
  have h := matchIndicesAux_first pins name 0 i restIdx hmi
  refine ⟨by simpa using h.2.2.1, fun j hj => ?_, ?_, ?_⟩
  · have := h.2.2.2 j (by omega)
    simpa using this
  · simp only [get_package, getPins, hp, hobj, hpins, hmi]
  · intro nb nr nv pinKvs kvs hpin hstate
    simp only [update_dependency, hp, update_go_eq topKvs objKvs pins i restIdx
      pinKvs kvs f.path name nb nr nv hobj hpins hmi hpin hstate]

/-- Witness for C8, on a document with two pins both named `X`: the lookup
returns the pin at index 0 — the first match — even though index 1 also
matches. -/
theorem lookup_first_match_mutable_reference_witness :
    get_package sampleDocDup "Package.resolved" "X" = .ok samplePin ∧
    pinNameMatches samplePinDup "X" = true := by
  have h := lookup_first_match_mutable_reference ⟨"Package.resolved", sampleDocDup⟩ "X"
    [("version", J.num 1), ("object", J.obj [("pins", J.arr [samplePin, samplePinDup])])]
    [("pins", J.arr [samplePin, samplePinDup])] [samplePin, samplePinDup] 0 [1]
    (by decide) (by decide) (by decide) (by decide)
  exact ⟨h.2.2.1, by decide⟩

/-- C9: the pin count is invariant — `update_dependency` never changes what
`get_number_of_dependencies` returns (on failure it leaves the document
alone; on success it replaces one list element) — and
`get_number_of_dependencies` is exactly the length of the `pins` array,
with no filtering. -/
theorem pin_count_invariant (f : PackageResolvedFile) (name : String) (nb nr nv : J) :
    get_number_of_dependencies (update_dependency f name nb nr nv).1 =
      get_number_of_dependencies f ∧
    (∀ pins : List J, getPins f.packages = .ok pins →
      get_number_of_dependencies f = .ok pins.length) := by
  constructor
  · cases hgo : update_go f.packages f.path name nb nr nv with
    | error e => simp [update_dependency, hgo]
    | ok res =>
      obtain ⟨newDoc, notice⟩ := res
      obtain ⟨topKvs, objKvs, pins, i, restIdx, pinKvs, kvs, hpk, hobj, hpins,
        hmi, hpin, hstate, hnew⟩ :=
        update_go_ok f.packages f.path name nb nr nv newDoc notice hgo
      have h1 : (update_dependency f name nb nr nv).1 = ⟨f.path, newDoc⟩ := by
        simp [update_dependency, hgo]
      rw [h1, hnew]
      simp only [get_number_of_dependencies, getPins, updatedDoc,
        lookupKey_setKey_self, hpk, hobj, hpins]
      simp
  · intro pins hpins2
    simp [get_number_of_dependencies, hpins2]

/-- Witness for C9: on the sample document the update preserves the count,
which equals the two-element pins array's length. -/
theorem pin_count_invariant_witness :
    get_number_of_dependencies
        (update_dependency sampleFile "X" (J.str "b") J.null J.null).1 =
      get_number_of_dependencies sampleFile ∧
    get_number_of_dependencies sampleFile = .ok 2 := by
  have h := pin_count_invariant sampleFile "X" (J.str "b") J.null J.null
  exact ⟨h.1, h.2 [samplePin, samplePin2] (by decide)⟩

/-- C10 (frame): a successful update rewrites only the three standard keys
of the matched pin's state: every other top-level key (the format version
included), every other key of the `object` dict, every other pin, every
other key of the pin (its name and repository URL included), and every
extra key inside the state keep their previous values. -/
theorem update_frame
    (f : PackageResolvedFile) (name : String) (nb nr nv : J)
    (topKvs objKvs : List (String × J)) (pins : List J)
    (i : Nat) (restIdx : List Nat) (pinKvs kvs : List (String × J))
    (hp : f.packages = J.obj topKvs)
    (hobj : lookupKey topKvs "object" = some (J.obj objKvs))
    (hpins : lookupKey objKvs "pins" = some (J.arr pins))
    (hmi : matchIndicesAux pins name 0 = .ok (i :: restIdx))
    (hpin : pins.getD i J.null = J.obj pinKvs)
    (hstate : lookupKey pinKvs "state" = some (J.obj kvs)) :
    (update_dependency f name nb nr nv).1 =
      ⟨f.path, updatedDoc topKvs objKvs pins i pinKvs kvs nb nr nv⟩ ∧
    (∀ k, k ≠ "object" →
      lookupKey (setKey topKvs "object" (J.obj (setKey objKvs "pins" (J.arr
        (pins.set i (J.obj (setKey pinKvs "state"
          (J.obj (newStateKvs kvs nb nr nv))))))))) k = lookupKey topKvs k) ∧
    (∀ k, k ≠ "pins" →
      lookupKey (setKey objKvs "pins" (J.arr (pins.set i (J.obj (setKey pinKvs
        "state" (J.obj (newStateKvs kvs nb nr nv))))))) k = lookupKey objKvs k) ∧
    (pins.set i (J.obj (setKey pinKvs "state"
      (J.obj (newStateKvs kvs nb nr nv))))).length = pins.length ∧
    (∀ j, j ≠ i →
      (pins.set i (J.obj (setKey pinKvs "state"
        (J.obj (newStateKvs kvs nb nr nv))))).getD j J.null = pins.getD j J.null) ∧
    (∀ k, k ≠ "state" →
      lookupKey (setKey pinKvs "state" (J.obj (newStateKvs kvs nb nr nv))) k =
        lookupKey pinKvs k) ∧
    (∀ k, k ≠ "branch" → k ≠ "revision" → k ≠ "version" →
      lookupKey (newStateKvs kvs nb nr nv) k = lookupKey kvs k) := by
  refine ⟨?_, ?_, ?_, by simp, ?_, ?_, ?_⟩
  · simp only [update_dependency, hp, update_go_eq topKvs objKvs pins i restIdx
      pinKvs kvs f.path name nb nr nv hobj hpins hmi hpin hstate]
  · intro k hk
    exact lookupKey_setKey_ne _ _ _ _ hk
  · intro k hk
    exact lookupKey_setKey_ne _ _ _ _ hk
  · intro j hj
    exact getD_set_ne _ _ _ _ _ hj
  · intro k hk
    exact lookupKey_setKey_ne _ _ _ _ hk
  · intro k h1 h2 h3
    simp only [newStateKvs]
    rw [lookupKey_setKey_ne _ _ _ _ h3, lookupKey_setKey_ne _ _ _ _ h2,
      lookupKey_setKey_ne _ _ _ _ h1]

/-- Witness for C10, on the pin `W` whose state carries the extra key
`checksum`: after an update, the unmatched pin, the pin's name and URL, the
format version, and the extra state key are all unchanged. -/
theorem update_frame_witness :
    (update_dependency sampleFileExtra "W" (J.str "dev") J.null J.null).1 =
      ⟨"Package.resolved",
        updatedDoc
          [("version", J.num 1),
           ("object", J.obj [("pins", J.arr [samplePinExtra, samplePin2])])]
          [("pins", J.arr [samplePinExtra, samplePin2])] [samplePinExtra, samplePin2]
          0
          [("package", J.str "W"),
           ("repositoryURL", J.str "https://github.com/DataDog/extra"),
           ("state", J.obj sampleStateExtra)]
          sampleStateExtra (J.str "dev") J.null J.null⟩ ∧
    lookupKey (newStateKvs sampleStateExtra (J.str "dev") J.null J.null) "checksum" =
      lookupKey sampleStateExtra "checksum" := by
  have h := update_frame sampleFileExtra "W" (J.str "dev") J.null J.null
    [("version", J.num 1),
     ("object", J.obj [("pins", J.arr [samplePinExtra, samplePin2])])]
    [("pins", J.arr [samplePinExtra, samplePin2])] [samplePinExtra, samplePin2] 0 []
    [("package", J.str "W"),
     ("repositoryURL", J.str "https://github.com/DataDog/extra"),
     ("state", J.obj sampleStateExtra)] sampleStateExtra
    (by decide) (by decide) (by decide) (by decide) (by decide) (by decide)
  exact ⟨h.1, h.2.2.2.2.2.2 "checksum" (by decide) (by decide) (by decide)⟩

/-- C3: once the file parses and carries a `version` key, construction
fails exactly when that version is not `==` the supported constant `1`;
the error message contains the path, the found version, and the supported
version.  When the version matches, the handle holding the parsed document
(and nothing else — `Except` admits no partial load) is returned. -/
theorem construct_rejects_unsupported_version
    (path content : String) (packages version : J)
    (hl : json_load content = .ok packages)
    (hv : jIndex packages "version" = .ok version) :
    (pyEq version (J.num supportedVersion) = false →
      construct path content =
        .error (path ++ " uses version " ++ jShow version ++
          " but `package_resolved.py` supports version " ++
          jShow (J.num supportedVersion) ++
          ". Update `package_resolved.py` to new format.") ∧
      path.data <:+:
        (path ++ " uses version " ++ jShow version ++
          " but `package_resolved.py` supports version " ++
          jShow (J.num supportedVersion) ++
          ". Update `package_resolved.py` to new format.").data ∧
      (jShow version).data <:+:
        (path ++ " uses version " ++ jShow version ++
          " but `package_resolved.py` supports version " ++
          jShow (J.num supportedVersion) ++
          ". Update `package_resolved.py` to new format.").data ∧
      (jShow (J.num supportedVersion)).data <:+:
        (path ++ " uses version " ++ jShow version ++
          " but `package_resolved.py` supports version " ++
          jShow (J.num supportedVersion) ++
          ". Update `package_resolved.py` to new format.").data) ∧
    (pyEq version (J.num supportedVersion) = true →
      construct path content = .ok ⟨path, packages⟩) := by
  constructor
  · intro hne
    refine ⟨by simp [construct, hl, hv, hne], ?_, ?_, ?_⟩
    · exact ⟨[], (" uses version " ++ jShow version ++
        " but `package_resolved.py` supports version " ++
        jShow (J.num supportedVersion) ++
        ". Update `package_resolved.py` to new format.").data, by simp⟩
    · exact ⟨(path ++ " uses version ").data,
        (" but `package_resolved.py` supports version " ++
         jShow (J.num supportedVersion) ++
         ". Update `package_resolved.py` to new format.").data, by simp⟩
    · exact ⟨(path ++ " uses version " ++ jShow version ++
        " but `package_resolved.py` supports version ").data,
        (". Update `package_resolved.py` to new format.").data, by simp⟩
  · intro he
    simp [construct, hl, hv, he]

/-- Witness for C3: a version-2 document is rejected with the message
naming the path and both versions, and the same document with version 1 is
accepted. -/
theorem construct_rejects_unsupported_version_witness :
    construct "p.resolved" (save ⟨"p.resolved", sampleDocV2⟩) =
      .error ("p.resolved" ++ " uses version " ++ "2" ++
        " but `package_resolved.py` supports version " ++ "1" ++
        ". Update `package_resolved.py` to new format.") ∧
    construct "p.resolved" (save sampleFile) =
      .ok ⟨"p.resolved", sortKeysJ sampleDoc⟩ := by
  constructor
  · have h := (construct_rejects_unsupported_version "p.resolved"
      (save ⟨"p.resolved", sampleDocV2⟩) (sortKeysJ sampleDocV2) (J.num 2)
      (by decide) (by decide)).1 (by decide)
    exact h.1
  · exact (construct_rejects_unsupported_version "p.resolved" (save sampleFile)
      (sortKeysJ sampleDoc) (J.num 1) (by decide) (by decide)).2 (by decide)

/-! ### Decimal rendering round-trips through the digit parser -/

theorem natToChars_lt_ten (n : Nat) (h : n < 10) : natToChars n = [digitChar n] := by
  simp [natToChars, natToDigitsAux, h]

theorem natToDigitsAux_shift : ∀ (fuel n : Nat) (acc : List Char), n < fuel →
    natToDigitsAux fuel n acc = natToChars n ++ acc := by
  intro fuel
  induction fuel using Nat.strong_induction_on with
  | _ fuel ih =>
    intro n acc hn
    cases fuel with
    | zero => omega
    | succ f =>
      by_cases h10 : n < 10
      · simp [natToDigitsAux, h10, natToChars_lt_ten n h10]
      · have hdiv : n / 10 < n := Nat.div_lt_self (by omega) (by omega)
        have lhs : natToDigitsAux (f + 1) n acc =
            natToChars (n / 10) ++ (digitChar (n % 10) :: acc) := by
          simp only [natToDigitsAux, if_neg h10]
          exact ih f (by omega) (n / 10) _ (by omega)
        have rhs : natToChars n = natToChars (n / 10) ++ [digitChar (n % 10)] := by
          have h2 : natToDigitsAux (n + 1) n [] =
              natToChars (n / 10) ++ (digitChar (n % 10) :: []) := by
            simp only [natToDigitsAux, if_neg h10]
            exact ih n (by omega) (n / 10) _ (by omega)
          simpa [natToChars] using h2
        rw [lhs, rhs]
        simp

theorem natToChars_ge_ten (n : Nat) (h : ¬ n < 10) :
    natToChars n = natToChars (n / 10) ++ [digitChar (n % 10)] := by
  have h2 : natToDigitsAux (n + 1) n [] =
      natToChars (n / 10) ++ (digitChar (n % 10) :: []) := by
    simp only [natToDigitsAux, if_neg h]
    exact natToDigitsAux_shift n (n / 10) _ (Nat.div_lt_self (by omega) (by omega))
  simpa [natToChars] using h2

theorem digitChar_isDigit (d : Nat) (h : d < 10) : isDigitB (digitChar d) = true := by
  interval_cases d <;> decide

theorem digitChar_toNat (d : Nat) (h : d < 10) : (digitChar d).toNat = 48 + d := by
  interval_cases d <;> decide

theorem natToChars_digits (n : Nat) : ∀ c ∈ natToChars n, isDigitB c = true := by
  induction n using Nat.strong_induction_on with
  | _ n ih =>
    by_cases h10 : n < 10
    · rw [natToChars_lt_ten n h10]
      intro c hc
      simp at hc
      subst hc
      exact digitChar_isDigit n h10
    · rw [natToChars_ge_ten n h10]
      intro c hc
      rw [List.mem_append] at hc
      cases hc with
      | inl h2 => exact ih (n / 10) (Nat.div_lt_self (by omega) (by omega)) c h2
      | inr h2 =>
        simp at h2
        subst h2
        exact digitChar_isDigit (n % 10) (Nat.mod_lt n (by omega))

theorem natToChars_ne_nil (n : Nat) : natToChars n ≠ [] := by
  by_cases h10 : n < 10
  · rw [natToChars_lt_ten n h10]
    simp
  · rw [natToChars_ge_ten n h10]
    simp

theorem natToChars_cons (n : Nat) :
    ∃ c t, natToChars n = c :: t ∧ isDigitB c = true := by
  cases h : natToChars n with
  | nil => exact absurd h (natToChars_ne_nil n)
  | cons c t =>
    refine ⟨c, t, rfl, ?_⟩
    exact natToChars_digits n c (by rw [h]; simp)

theorem foldl_natToChars (n : Nat) : ∀ a : Nat,
    (natToChars n).foldl (fun a c => a * 10 + (c.toNat - 48)) a =
      a * 10 ^ (natToChars n).length + n := by
  induction n using Nat.strong_induction_on with
  | _ n ih =>
    intro a
    by_cases h10 : n < 10
    · rw [natToChars_lt_ten n h10]
      simp [digitChar_toNat n h10]
    · rw [natToChars_ge_ten n h10]
      rw [List.foldl_append, ih (n / 10) (Nat.div_lt_self (by omega) (by omega)) a]
      have hm := Nat.mod_lt n (show 0 < 10 by omega)
      simp only [List.foldl_cons, List.foldl_nil, digitChar_toNat (n % 10) hm,
        List.length_append, List.length_cons, List.length_nil]
      rw [pow_succ]
      have hdm := Nat.div_add_mod n 10
      have : 48 + n % 10 - 48 = n % 10 := by omega
      rw [this]
      ring_nf
      omega

/-! ### `skipWs` facts -/

theorem skipWs_cons_not_ws (c : Char) (l : List Char) (h : isWsB c = false) :
    skipWs (c :: l) = c :: l := by
  simp [skipWs, h]

theorem skipWs_pad (n : Nat) (l : List Char) : skipWs (pad n ++ l) = skipWs l := by
  induction n with
  | zero => simp [pad]
  | succ m ih =>
    have : pad (m + 1) = ' ' :: pad m := by simp [pad, List.replicate_succ]
    rw [this]
    simp only [List.cons_append, skipWs]
    rw [if_pos (by decide)]
    exact ih

theorem skipWs_newline (l : List Char) : skipWs ('\n' :: l) = skipWs l := by
  simp [skipWs, isWsB]

theorem skipWs_space (l : List Char) : skipWs (' ' :: l) = skipWs l := by
  simp [skipWs, isWsB]

theorem parseV_congr (fuel : Nat) (cs cs2 : List Char)
    (h : skipWs cs = skipWs cs2) : parseV fuel cs = parseV fuel cs2 := by
  cases fuel with
  | zero => rfl
  | succ f => simp only [parseV, h]

/-! ### The first character of serialized output -/

theorem isDigitB_facts (c : Char) (h : isDigitB c = true) :
    isWsB c = false ∧ c ≠ ']' ∧ c ≠ '\x7d' ∧ c ≠ 'n' ∧ c ≠ 't' ∧ c ≠ 'f' ∧
      c ≠ '"' ∧ c ≠ '[' ∧ c ≠ '\x7b' ∧ c ≠ '-' := by
  have h2 : 48 ≤ c.toNat ∧ c.toNat ≤ 57 := by
    simpa [isDigitB, Bool.and_eq_true, decide_eq_true_eq] using h
  have hne : ∀ d : Char, c.toNat ≠ d.toNat → c ≠ d := by
    intro d hd he
    exact hd (by rw [he])
  refine ⟨?_, ?_, ?_, ?_, ?_, ?_, ?_, ?_, ?_, ?_⟩
  · by_contra hw
    simp only [Bool.not_eq_false] at hw
    have h3 : c = ' ' ∨ c = '\t' ∨ c = '\n' ∨ c = '\x0d' := by
      simpa [isWsB, or_assoc] using hw
    rcases h3 with h3 | h3 | h3 | h3 <;> (subst h3; exact absurd h2 (by decide))
  · exact hne _ (by intro h3; rw [show (']' : Char).toNat = 93 from rfl] at h3; omega)
  · exact hne _ (by intro h3; rw [show ('\x7d' : Char).toNat = 125 from rfl] at h3; omega)
  · exact hne _ (by intro h3; rw [show ('n' : Char).toNat = 110 from rfl] at h3; omega)
  · exact hne _ (by intro h3; rw [show ('t' : Char).toNat = 116 from rfl] at h3; omega)
  · exact hne _ (by intro h3; rw [show ('f' : Char).toNat = 102 from rfl] at h3; omega)
  · exact hne _ (by intro h3; rw [show ('"' : Char).toNat = 34 from rfl] at h3; omega)
  · exact hne _ (by intro h3; rw [show ('[' : Char).toNat = 91 from rfl] at h3; omega)
  · exact hne _ (by intro h3; rw [show ('\x7b' : Char).toNat = 123 from rfl] at h3; omega)
  · exact hne _ (by intro h3; rw [show ('-' : Char).toNat = 45 from rfl] at h3; omega)

theorem serJ_head (v : J) (ind : Nat) :
    ∃ c t, serJ v ind = c :: t ∧ isWsB c = false ∧ c ≠ ']' ∧ c ≠ '\x7d' := by
  cases v with
  | null => exact ⟨'n', _, rfl, by decide, by decide, by decide⟩
  | bool b =>
    cases b with
    | true => exact ⟨'t', ['r', 'u', 'e'], rfl, by decide, by decide, by decide⟩
    | false => exact ⟨'f', ['a', 'l', 's', 'e'], rfl, by decide, by decide, by decide⟩
  | str s => exact ⟨'"', _, rfl, by decide, by decide, by decide⟩
  | num n =>
    cases n with
    | ofNat m =>
      obtain ⟨c, t, hc, hd⟩ := natToChars_cons m
      obtain ⟨h1, h2, h3, _⟩ := isDigitB_facts c hd
      refine ⟨c, t, ?_, h1, h2, h3⟩
      show intToChars (Int.ofNat m) = c :: t
      rw [intToChars]
      exact hc
    | negSucc m =>
      refine ⟨'-', natToChars (m + 1), ?_, by decide, by decide, by decide⟩
      show intToChars (Int.negSucc m) = '-' :: natToChars (m + 1)
      rw [intToChars]
  | arr xs =>
    cases xs with
    | nil => exact ⟨'[', _, rfl, by decide, by decide, by decide⟩
    | cons x rest => exact ⟨'[', _, rfl, by decide, by decide, by decide⟩
  | obj kvs =>
    cases kvs with
    | nil => exact ⟨'\x7b', _, rfl, by decide, by decide, by decide⟩
    | cons kv rest => exact ⟨'\x7b', _, rfl, by decide, by decide, by decide⟩

theorem skipWs_serJ (v : J) (ind : Nat) (x : List Char) :
    skipWs (serJ v ind ++ x) = serJ v ind ++ x := by
  obtain ⟨c, t, hser, hws, _, _⟩ := serJ_head v ind
  rw [hser, List.cons_append, skipWs_cons_not_ws c _ hws]

/-! ### The number parser on dumped integers -/

theorem takeWhile_digits (ds rest : List Char)
    (hd : ∀ c ∈ ds, isDigitB c = true) (hr : numStop rest) :
    (ds ++ rest).takeWhile isDigitB = ds ∧ (ds ++ rest).dropWhile isDigitB = rest := by
  induction ds with
  | nil =>
    simp only [List.nil_append]
    cases rest with
    | nil => simp
    | cons c t =>
      obtain ⟨h1, _, _, _⟩ := hr
      exact ⟨by simp [List.takeWhile_cons, h1], by simp [List.dropWhile_cons, h1]⟩
  | cons c t ih =>
    have hc := hd c (List.mem_cons_self c t)
    have iht := ih (fun x hx => hd x (List.mem_cons_of_mem c hx))
    exact ⟨by simp [List.takeWhile_cons, hc, iht.1],
      by simp [List.dropWhile_cons, hc, iht.2]⟩

theorem parseNumMag_digits (neg : Bool) (m : Nat) (rest : List Char)
    (hr : numStop rest) :
    parseNumMag neg (natToChars m ++ rest) =
      .ok (J.num (if neg then -(m : Int) else (m : Int)), rest) := by
  obtain ⟨htake, hdrop⟩ := takeWhile_digits (natToChars m) rest (natToChars_digits m) hr
  have hfloat : ¬(rest.head? = some '.' ∨ rest.head? = some 'e' ∨
      rest.head? = some 'E') := by
    cases rest with
    | nil => simp
    | cons c t =>
      obtain ⟨_, h2, h3, h4⟩ := hr
      simp [h2, h3, h4]
  have hfold : (natToChars m).foldl (fun a c => a * 10 + (c.toNat - 48)) 0 = m := by
    have h2 := foldl_natToChars m 0
    simpa using h2
  simp only [parseNumMag, htake, hdrop, if_neg (natToChars_ne_nil m), if_neg hfloat,
    hfold]

theorem parseNumber_intToChars (n : Int) (rest : List Char) (hr : numStop rest) :
    parseNumber (intToChars n ++ rest) = .ok (J.num n, rest) := by
  cases n with
  | ofNat m =>
    obtain ⟨c, t, hc, hd⟩ := natToChars_cons m
    have hnm : c ≠ '-' := (isDigitB_facts c hd).2.2.2.2.2.2.2.2.2
    have harg : intToChars (Int.ofNat m) ++ rest = c :: (t ++ rest) := by
      rw [intToChars, hc]
      simp
    rw [harg, parseNumber.eq_def]
    split
    · rename_i r heq
      simp only [List.cons.injEq] at heq
      exact absurd heq.1 hnm
    · rename_i cs heq
      rw [← harg, intToChars, parseNumMag_digits false m rest hr]
      simp
  | negSucc m =>
    have harg : intToChars (Int.negSucc m) ++ rest =
        '-' :: (natToChars (m + 1) ++ rest) := by
      rw [intToChars]
      simp
    rw [harg, parseNumber.eq_def]
    split
    · rename_i r heq
      simp only [List.cons.injEq] at heq
      rw [← heq.2, parseNumMag_digits true (m + 1) rest hr]
      have hns : -((m + 1 : Nat) : Int) = Int.negSucc m := by
        rw [Int.negSucc_eq]
        push_cast
        ring
      simp only [if_true, hns]
    · rename_i cs heq
      exact absurd rfl (heq (natToChars (m + 1) ++ rest))

theorem parseV_num (fuel : Nat) (n : Int) (rest : List Char) (hr : numStop rest) :
    parseV (fuel + 1) (intToChars n ++ rest) = .ok (J.num n, rest) := by
  obtain ⟨c0, t0, hser, hws, hbr1, hbr2⟩ := serJ_head (J.num n) 0
  have hser2 : intToChars n = c0 :: t0 := hser
  have hdash : c0 = '-' ∨ isDigitB c0 = true := by
    cases n with
    | ofNat m =>
      obtain ⟨c, t, hc, hd⟩ := natToChars_cons m
      right
      have h0 : intToChars (Int.ofNat m) = c :: t := by rw [intToChars, hc]
      rw [hser2] at h0
      simp only [List.cons.injEq] at h0
      rw [h0.1]
      exact hd
    | negSucc m =>
      left
      have h0 : intToChars (Int.negSucc m) = '-' :: natToChars (m + 1) := by
        rw [intToChars]
      rw [hser2] at h0
      simp only [List.cons.injEq] at h0
      exact h0.1
  have hfacts : c0 ≠ 'n' ∧ c0 ≠ 't' ∧ c0 ≠ 'f' ∧ c0 ≠ '"' ∧ c0 ≠ '[' ∧
      c0 ≠ '\x7b' := by
    cases hdash with
    | inl h =>
      subst h
      exact ⟨by decide, by decide, by decide, by decide, by decide, by decide⟩
    | inr h =>
      obtain ⟨_, _, _, h4, h5, h6, h7, h8, h9, _⟩ := isDigitB_facts c0 h
      exact ⟨h4, h5, h6, h7, h8, h9⟩
  obtain ⟨hn, ht, hf, hq, hk, hb⟩ := hfacts
  have harg : intToChars n ++ rest = c0 :: (t0 ++ rest) := by
    rw [hser2]
    simp
  rw [harg]
  simp only [parseV]
  rw [skipWs_cons_not_ws c0 _ hws]
  have hcond : (c0 = '-' || isDigitB c0) = true := by
    cases hdash with
    | inl h => simp [h]
    | inr h => simp [h]
  split
  · rename_i heq
    simp only [List.cons.injEq] at heq
    exact absurd heq.1 hn
  · rename_i heq
    simp only [List.cons.injEq] at heq
    exact absurd heq.1 ht
  · rename_i heq
    simp only [List.cons.injEq] at heq
    exact absurd heq.1 hf
  · rename_i heq
    simp only [List.cons.injEq] at heq
    exact absurd heq.1 hq
  · rename_i heq
    simp only [List.cons.injEq] at heq
    exact absurd heq.1 hk
  · rename_i heq
    simp only [List.cons.injEq] at heq
    exact absurd heq.1 hb
  · rename_i c2 t2 heq
    simp only [List.cons.injEq] at heq
    obtain ⟨hc2, ht2⟩ := heq
    subst hc2
    subst ht2
    rw [if_pos hcond, ← harg, parseNumber_intToChars n rest hr]
  · rename_i heq
    simp at heq

/-! ### The string literal parser on escaped output -/

theorem charEq_of_toNat {c d : Char} (h : c.toNat = d.toNat) : c = d := by
  have hv : c.val = d.val := by
    have h1 : c.val.toNat = d.val.toNat := h
    exact UInt32.ext (by exact_mod_cast h1)
  exact Char.eq_of_val_eq hv

theorem char_toNat_lt (c : Char) : c.toNat < 1114112 := by
  have hv := c.valid
  have he : c.toNat = c.val.toNat := rfl
  rcases hv with h1 | h2 <;> omega

theorem char_not_surrogate (c : Char) : ¬(55296 ≤ c.toNat ∧ c.toNat ≤ 57343) := by
  have hv := c.valid
  have he : c.toNat = c.val.toNat := rfl
  rcases hv with h1 | h2 <;> omega

theorem hexVal_hexDigitChar (d : Nat) (h : d < 16) :
    hexVal (hexDigitChar d) = some d := by
  interval_cases d <;> decide

theorem hex4_hexDigits (n : Nat) (h : n < 65536) :
    hex4 (hexDigitChar (n / 4096 % 16)) (hexDigitChar (n / 256 % 16))
      (hexDigitChar (n / 16 % 16)) (hexDigitChar (n % 16)) = some n := by
  simp only [hex4, hexVal_hexDigitChar (n / 4096 % 16) (by omega),
    hexVal_hexDigitChar (n / 256 % 16) (by omega),
    hexVal_hexDigitChar (n / 16 % 16) (by omega),
    hexVal_hexDigitChar (n % 16) (by omega)]
  congr 1
  omega

theorem parseStrAux_cons_plain (c : Char) (t : List Char)
    (h1 : c ≠ '"') (h2 : c ≠ '\\') (h3 : ¬ c.toNat < 32) :
    parseStrAux (c :: t) =
      (match parseStrAux t with
       | .ok (s, r) => .ok (c :: s, r)
       | .error e => .error e) := by
  rw [parseStrAux.eq_def]
  split
  · rename_i heq
    simp at heq
  · rename_i r heq
    simp only [List.cons.injEq] at heq
    exact absurd heq.1 h1
  · rename_i a b c2 d r heq
    simp only [List.cons.injEq] at heq
    exact absurd heq.1 h2
  · rename_i e r heq
    simp only [List.cons.injEq] at heq
    exact absurd heq.1 h2
  · rename_i c2 r heq
    simp only [List.cons.injEq] at heq
    obtain ⟨hc2, hr2⟩ := heq
    subst hc2
    subst hr2
    rw [if_neg h3]

theorem parseStrAux_escBody : ∀ (s rest : List Char),
    parseStrAux (s.flatMap escChar ++ ('"' :: rest)) = .ok (s, rest) := by
  intro s
  induction s with
  | nil =>
    intro rest
    simp [parseStrAux]
  | cons c s ih =>
    intro rest
    have hbody : (c :: s).flatMap escChar ++ ('"' :: rest) =
        escChar c ++ (s.flatMap escChar ++ ('"' :: rest)) := by
      simp
    rw [hbody]
    by_cases h1 : c = '"'
    · subst h1
      rw [show escChar '"' = ['\\', '"'] by decide]
      simp [parseStrAux, unescapeChar, ih rest]
    by_cases h2 : c = '\\'
    · subst h2
      rw [show escChar '\\' = ['\\', '\\'] by decide]
      simp [parseStrAux, unescapeChar, ih rest]
    by_cases h3 : c = '\n'
    · subst h3
      rw [show escChar '\n' = ['\\', 'n'] by decide]
      simp [parseStrAux, unescapeChar, ih rest]
    by_cases h4 : c = '\x0d'
    · subst h4
      rw [show escChar '\x0d' = ['\\', 'r'] by decide]
      simp [parseStrAux, unescapeChar, ih rest]
    by_cases h5 : c = '\t'
    · subst h5
      rw [show escChar '\t' = ['\\', 't'] by decide]
      simp [parseStrAux, unescapeChar, ih rest]
    by_cases h6 : c.toNat = 8
    · have hc : c = '\x08' := charEq_of_toNat (by rw [h6]; rfl)
      subst hc
      rw [show escChar '\x08' = ['\\', 'b'] by decide]
      simp [parseStrAux, unescapeChar, ih rest]
    by_cases h7 : c.toNat = 12
    · have hc : c = '\x0c' := charEq_of_toNat (by rw [h7]; rfl)
      subst hc
      rw [show escChar '\x0c' = ['\\', 'f'] by decide]
      simp [parseStrAux, unescapeChar, ih rest]
    by_cases h8 : c.toNat < 32
    · have hesc : escChar c = '\\' :: 'u' :: hex4chars c.toNat := by
        simp only [escChar, if_neg h1, if_neg h2, if_neg h3, if_neg h4, if_neg h5,
          if_neg h6, if_neg h7, if_pos h8]
      rw [hesc, hex4chars]
      simp only [List.cons_append, List.nil_append, parseStrAux,
        hex4_hexDigits c.toNat (by omega)]
      rw [if_neg (by omega : ¬(55296 ≤ c.toNat ∧ c.toNat ≤ 56319)),
        if_neg (by omega : ¬(56320 ≤ c.toNat ∧ c.toNat ≤ 57343)), ih rest,
        Char.ofNat_toNat]
    by_cases h9 : c.toNat < 127
    · have hesc : escChar c = [c] := by
        simp only [escChar, if_neg h1, if_neg h2, if_neg h3, if_neg h4, if_neg h5,
          if_neg h6, if_neg h7, if_neg h8, if_pos h9]
      rw [hesc]
      simp only [List.cons_append, List.nil_append]
      rw [parseStrAux_cons_plain c _ h1 h2 h8, ih rest]
    by_cases h10 : c.toNat < 65536
    · have hs := char_not_surrogate c
      have hesc : escChar c = '\\' :: 'u' :: hex4chars c.toNat := by
        simp only [escChar, if_neg h1, if_neg h2, if_neg h3, if_neg h4, if_neg h5,
          if_neg h6, if_neg h7, if_neg h8, if_neg h9, if_pos h10]
      rw [hesc, hex4chars]
      simp only [List.cons_append, List.nil_append, parseStrAux,
        hex4_hexDigits c.toNat (by omega)]
      rw [if_neg (by omega : ¬(55296 ≤ c.toNat ∧ c.toNat ≤ 56319)),
        if_neg (by omega : ¬(56320 ≤ c.toNat ∧ c.toNat ≤ 57343)), ih rest,
        Char.ofNat_toNat]
    · have hlt := char_toNat_lt c
      have hesc : escChar c =
          ('\\' :: 'u' :: hex4chars (55296 + (c.toNat - 65536) / 1024)) ++
            ('\\' :: 'u' :: hex4chars (56320 + (c.toNat - 65536) % 1024)) := by
        simp only [escChar, if_neg h1, if_neg h2, if_neg h3, if_neg h4, if_neg h5,
          if_neg h6, if_neg h7, if_neg h8, if_neg h9, if_neg h10]
      have hmod : (c.toNat - 65536) % 1024 < 1024 := Nat.mod_lt _ (by omega)
      have hdiv : (c.toNat - 65536) / 1024 < 1024 := by omega
      rw [hesc, hex4chars, hex4chars]
      simp only [List.cons_append, List.nil_append, List.append_assoc, parseStrAux,
        hex4_hexDigits (55296 + (c.toNat - 65536) / 1024) (by omega)]
      rw [if_pos (by omega : 55296 ≤ 55296 + (c.toNat - 65536) / 1024 ∧
            55296 + (c.toNat - 65536) / 1024 ≤ 56319)]
      simp only [hex4_hexDigits (56320 + (c.toNat - 65536) % 1024) (by omega)]
      rw [if_pos (by omega : 56320 ≤ 56320 + (c.toNat - 65536) % 1024 ∧
            56320 + (c.toNat - 65536) % 1024 ≤ 57343), ih rest]
      have harith : 65536 + (55296 + (c.toNat - 65536) / 1024 - 55296) * 1024 +
          (56320 + (c.toNat - 65536) % 1024 - 56320) = c.toNat := by
        have := Nat.div_add_mod (c.toNat - 65536) 1024
        omega
      rw [harith, Char.ofNat_toNat]

theorem parseStrAux_serStr (s : String) (rest : List Char) :
    parseStrAux (s.data.flatMap escChar ++ ('"' :: rest)) = .ok (s.data, rest) :=
  parseStrAux_escBody s.data rest

/-! ### Sorting members commutes with transforming their values -/

theorem orderedInsert_map {α β : Type} (g : α → β) (kv : String × α)
    (l : List (String × α)) :
    List.orderedInsert (fun a b => keyLe a.1 b.1 = true) (kv.1, g kv.2)
        (l.map (fun p => (p.1, g p.2))) =
      (List.orderedInsert (fun a b => keyLe a.1 b.1 = true) kv l).map
        (fun p => (p.1, g p.2)) := by
  induction l with
  | nil => simp [List.orderedInsert]
  | cons p t ih =>
    simp only [List.map_cons, List.orderedInsert]
    by_cases h : keyLe kv.1 p.1 = true
    · rw [if_pos h, if_pos h]
      simp
    · rw [if_neg h, if_neg h]
      simp only [List.map_cons, ih]

theorem sortPairs_map {α β : Type} (g : α → β) (l : List (String × α)) :
    sortPairs (l.map (fun p => (p.1, g p.2))) =
      (sortPairs l).map (fun p => (p.1, g p.2)) := by
  induction l with
  | nil => rfl
  | cons kv t ih =>
    simp only [sortPairs, List.map_cons, List.insertionSort] at *
    rw [ih]
    exact orderedInsert_map g kv (List.insertionSort _ t)

theorem serMembers_eq_map (kvs : List (String × J)) (ind : Nat) :
    serMembers kvs ind = kvs.map (fun kv => (kv.1, serJ kv.2 ind)) := by
  induction kvs with
  | nil => rfl
  | cons kv t ih => simp [serMembers, ih]

theorem serElems_eq_map (xs : List J) (ind : Nat) :
    serElems xs ind = xs.map (fun x => serJ x ind) := by
  induction xs with
  | nil => rfl
  | cons x t ih => simp [serElems, ih]

theorem sortKeysF_eq_map (kvs : List (String × J)) :
    sortKeysF kvs = kvs.map (fun kv => (kv.1, sortKeysJ kv.2)) := by
  induction kvs with
  | nil => rfl
  | cons kv t ih => simp [sortKeysF, ih]

theorem sortKeysL_eq_map (xs : List J) :
    sortKeysL xs = xs.map sortKeysJ := by
  induction xs with
  | nil => rfl
  | cons x t ih => simp [sortKeysL, ih]

/-! ### Key uniqueness, lookups and `dict(pairs)` -/

theorem nodupKeysB_iff (l : List String) : nodupKeysB l = true ↔ l.Nodup := by
  induction l with
  | nil => simp [nodupKeysB]
  | cons k t ih =>
    simp only [nodupKeysB, Bool.and_eq_true, Bool.not_eq_true', List.nodup_cons, ih]
    constructor
    · rintro ⟨he, ht⟩
      refine ⟨fun hm => ?_, ht⟩
      rw [List.elem_eq_true_of_mem hm] at he
      cases he
    · rintro ⟨hm, ht⟩
      refine ⟨?_, ht⟩
      cases he : List.elem k t
      · rfl
      · exact absurd (List.mem_of_elem_eq_true he) hm

theorem mem_of_lookupKey_eq_some (l : List (String × J)) (k : String) (v : J)
    (h : lookupKey l k = some v) : (k, v) ∈ l := by
  induction l with
  | nil => simp [lookupKey] at h
  | cons kv t ih =>
    by_cases h1 : kv.1 = k
    · obtain ⟨k1, v1⟩ := kv
      simp only at h1
      subst h1
      simp [lookupKey] at h
      simp [h]
    · obtain ⟨k1, v1⟩ := kv
      simp only at h1
      simp only [lookupKey, if_neg h1] at h
      exact List.mem_cons_of_mem _ (ih h)

theorem lookupKey_eq_none_iff (l : List (String × J)) (k : String) :
    lookupKey l k = none ↔ k ∉ l.map Prod.fst := by
  induction l with
  | nil => simp [lookupKey]
  | cons kv t ih =>
    obtain ⟨k1, v1⟩ := kv
    simp only [lookupKey, List.map_cons, List.mem_cons]
    by_cases h : k1 = k
    · simp [h]
    · rw [if_neg h, ih]
      constructor
      · intro hnot hor
        cases hor with
        | inl hk => exact h hk.symm
        | inr hk => exact hnot hk
      · intro hnot hk
        exact hnot (Or.inr hk)

theorem lookupKey_perm (l l2 : List (String × J)) (hp : List.Perm l l2)
    (hn : (l.map Prod.fst).Nodup) (k : String) :
    lookupKey l2 k = lookupKey l k := by
  have hn2 : (l2.map Prod.fst).Nodup := ((hp.map Prod.fst).nodup_iff).mp hn
  cases h2 : lookupKey l k with
  | none =>
    rw [lookupKey_eq_none_iff] at h2 ⊢
    intro hm
    exact h2 ((hp.map Prod.fst).mem_iff.mpr hm)
  | some v =>
    have hm := mem_of_lookupKey_eq_some l k v h2
    have hm2 : (k, v) ∈ l2 := hp.mem_iff.mp hm
    exact lookupKey_mem_of_nodup l2 (k, v) ((nodupKeysB_iff _).mpr hn2) hm2

theorem setKey_append_of_none (l : List (String × J)) (k : String) (v : J)
    (h : lookupKey l k = none) : setKey l k v = l ++ [(k, v)] := by
  induction l with
  | nil => simp [setKey]
  | cons kv t ih =>
    by_cases h1 : kv.1 = k
    · obtain ⟨k1, v1⟩ := kv
      simp only at h1
      subst h1
      simp [lookupKey] at h
    · obtain ⟨k1, v1⟩ := kv
      simp only at h1
      simp only [lookupKey, if_neg h1] at h
      simp [setKey, h1, ih h]

theorem sortPairs_ne_nil {α : Type} (kv : String × α) (l : List (String × α)) :
    sortPairs (kv :: l) ≠ [] := by
  intro h
  have hp := List.perm_insertionSort (fun a b : String × α => keyLe a.1 b.1 = true)
    (kv :: l)
  rw [show sortPairs (kv :: l) = List.insertionSort _ (kv :: l) from rfl] at h
  rw [h] at hp
  exact absurd hp.length_eq (by simp)

theorem jsizeL_ge_length (xs : List J) : xs.length ≤ jsizeL xs := by
  induction xs with
  | nil => simp [jsizeL]
  | cons x t ih =>
    have := jsize_pos x
    simp only [List.length_cons, jsizeL]
    omega

theorem jsizeF_ge_length (kvs : List (String × J)) : kvs.length ≤ jsizeF kvs := by
  induction kvs with
  | nil => simp [jsizeF]
  | cons kv t ih =>
    have := jsize_pos kv.2
    simp only [List.length_cons, jsizeF]
    omega

theorem joinItems_bridge : ∀ (xs : List J) (ind indC : Nat) (rest : List Char),
    xs ≠ [] →
    joinItems (serElems xs ind) ind ++ ('\n' :: (pad indC ++ (']' :: rest))) =
      pad ind ++ arrItemsText xs ind indC rest := by
  intro xs
  induction xs with
  | nil => intro _ _ _ h; exact absurd rfl h
  | cons x t ih =>
    intro ind indC rest _
    cases t with
    | nil =>
      simp [serElems, joinItems, arrItemsText, List.append_assoc]
    | cons y t2 =>
      have ih2 := ih ind indC rest (by simp)
      simp only [serElems, joinItems, arrItemsText, List.append_assoc,
        List.cons_append]
      rw [← ih2]
      simp [serElems, List.append_assoc]

theorem joinMembers_bridge : ∀ (ms : List (String × J)) (ind indC : Nat)
    (rest : List Char), ms ≠ [] →
    joinMembers (ms.map (fun kv => (kv.1, serJ kv.2 ind))) ind ++
        ('\n' :: (pad indC ++ ('\x7d' :: rest))) =
      pad ind ++ objMembersText ms ind indC rest := by
  intro ms
  induction ms with
  | nil => intro _ _ _ h; exact absurd rfl h
  | cons kv t ih =>
    intro ind indC rest _
    cases t with
    | nil =>
      simp [joinMembers, objMembersText, List.append_assoc]
    | cons kw t2 =>
      have ih2 := ih ind indC rest (by simp)
      simp only [List.map_cons, joinMembers, objMembersText, List.append_assoc,
        List.cons_append]
      rw [← ih2]
      simp [List.append_assoc]

theorem dictOfPairs_self (l : List (String × J))
    (h : nodupKeysB (l.map Prod.fst) = true) : dictOfPairs l = l := by
  suffices haux : ∀ (l2 acc : List (String × J)),
      (∀ kv ∈ l2, lookupKey acc kv.1 = none) →
      nodupKeysB (l2.map Prod.fst) = true →
      l2.foldl (fun d kv => setKey d kv.1 kv.2) acc = acc ++ l2 by
    have h2 := haux l [] (fun kv _ => rfl) h
    simpa [dictOfPairs] using h2
  intro l2
  induction l2 with
  | nil =>
    intro acc _ _
    simp
  | cons kv t ih =>
    intro acc hacc hnd
    simp only [List.map_cons, nodupKeysB, Bool.and_eq_true, Bool.not_eq_true'] at hnd
    simp only [List.foldl_cons]
    rw [setKey_append_of_none acc kv.1 kv.2 (hacc kv (List.mem_cons_self _ _))]
    rw [ih (acc ++ [(kv.1, kv.2)]) ?_ hnd.2]
    · simp
    · intro kw hkw
      rw [lookupKey_eq_none_iff]
      simp only [List.map_append, List.mem_append, List.map_cons, List.map_nil]
      rintro (hin | hin)
      · have := (lookupKey_eq_none_iff acc kw.1).mp (hacc kw (List.mem_cons_of_mem _ hkw))
        exact this hin
      · simp only [List.mem_singleton] at hin
        have hkwt : kw.1 ∈ t.map Prod.fst := List.mem_map_of_mem Prod.fst hkw
        rw [hin] at hkwt
        rw [List.elem_eq_true_of_mem hkwt] at hnd
        exact absurd hnd.1 (by simp)

/-! ### The serialized text is at least as long as the value's size, so the
fuel `json_load` grants (input length + 1) always covers `jsize`. -/

theorem joinItems_len_ge : ∀ (items : List (List Char)) (ind : Nat),
    items ≠ [] →
    (items.map List.length).sum + items.length ≤ (joinItems items ind).length + 1
  | [], _, h => absurd rfl h
  | [x], ind, _ => by
    simp only [joinItems, List.map_cons, List.map_nil, List.sum_cons,
      List.sum_nil, List.length_cons, List.length_nil, List.length_append,
      pad, List.length_replicate]
    omega
  | x :: y :: t, ind, _ => by
    have ih := joinItems_len_ge (y :: t) ind (by simp)
    simp only [joinItems, List.map_cons, List.sum_cons, List.length_cons,
      List.length_append, pad, List.length_replicate] at ih ⊢
    omega

theorem joinMembers_len_ge : ∀ (ms : List (String × List Char)) (ind : Nat),
    ms ≠ [] →
    (ms.map (fun kv => kv.2.length)).sum + ms.length ≤ (joinMembers ms ind).length + 1
  | [], _, h => absurd rfl h
  | [kv], ind, _ => by
    simp only [joinMembers, List.map_cons, List.map_nil, List.sum_cons,
      List.sum_nil, List.length_cons, List.length_nil, List.length_append,
      pad, List.length_replicate]
    omega
  | kv :: kw :: t, ind, _ => by
    have ih := joinMembers_len_ge (kw :: t) ind (by simp)
    simp only [joinMembers, List.map_cons, List.sum_cons, List.length_cons,
      List.length_append, pad, List.length_replicate] at ih ⊢
    omega

theorem serElems_length (xs : List J) (ind : Nat) :
    (serElems xs ind).length = xs.length := by
  rw [serElems_eq_map, List.length_map]

theorem serMembers_length (kvs : List (String × J)) (ind : Nat) :
    (serMembers kvs ind).length = kvs.length := by
  rw [serMembers_eq_map, List.length_map]

mutual

theorem jsize_le_serLen : ∀ (v : J) (ind : Nat), jsize v ≤ (serJ v ind).length
  | .null, _ => by simp [jsize, serJ]
  | .bool b, _ => by cases b <;> simp [jsize, serJ]
  | .num n, ind => by
    obtain ⟨c, t, hc, _⟩ := serJ_head (.num n) ind
    simp [jsize, hc]
  | .str s, _ => by simp [jsize, serJ, serStrChars]
  | .arr [], _ => by simp [jsize, jsizeL, serJ]
  | .arr (x :: xs), ind => by
    have hL := jsizeL_le_serLen (x :: xs) (ind + 2)
    have hJ := joinItems_len_ge (serElems (x :: xs) (ind + 2)) (ind + 2)
      (by simp [serElems])
    rw [serElems_length] at hJ
    simp only [jsize, serJ, List.length_cons, List.length_append, List.length_nil,
      pad, List.length_replicate] at hL hJ ⊢
    omega
  | .obj [], _ => by simp [jsize, jsizeF, serJ]
  | .obj (kv :: kvs), ind => by
    have hF := jsizeF_le_serLen (kv :: kvs) (ind + 2)
    have hperm : List.Perm (sortPairs (serMembers (kv :: kvs) (ind + 2)))
        (serMembers (kv :: kvs) (ind + 2)) :=
      List.perm_insertionSort _ _
    have hne : sortPairs (serMembers (kv :: kvs) (ind + 2)) ≠ [] := by
      simp only [serMembers]
      exact sortPairs_ne_nil _ _
    have hJ := joinMembers_len_ge (sortPairs (serMembers (kv :: kvs) (ind + 2)))
      (ind + 2) hne
    have hsum : ((sortPairs (serMembers (kv :: kvs) (ind + 2))).map
          (fun kw : String × List Char => kw.2.length)).sum =
        ((serMembers (kv :: kvs) (ind + 2)).map
          (fun kw : String × List Char => kw.2.length)).sum :=
      (hperm.map (fun kw : String × List Char => kw.2.length)).sum_eq
    have hlen : (sortPairs (serMembers (kv :: kvs) (ind + 2))).length =
        (serMembers (kv :: kvs) (ind + 2)).length := hperm.length_eq
    rw [hsum, hlen, serMembers_length] at hJ
    simp only [jsize, serJ, List.length_cons, List.length_append, List.length_nil,
      pad, List.length_replicate] at hF hJ ⊢
    omega

theorem jsizeL_le_serLen : ∀ (xs : List J) (ind : Nat),
    jsizeL xs ≤ ((serElems xs ind).map List.length).sum + xs.length
  | [], _ => by simp [jsizeL, serElems]
  | x :: xs, ind => by
    have h1 := jsize_le_serLen x ind
    have h2 := jsizeL_le_serLen xs ind
    simp only [jsizeL, serElems, List.map_cons, List.sum_cons, List.length_cons]
    omega

theorem jsizeF_le_serLen : ∀ (kvs : List (String × J)) (ind : Nat),
    jsizeF kvs ≤ ((serMembers kvs ind).map (fun kw => kw.2.length)).sum + kvs.length
  | [], _ => by simp [jsizeF, serMembers]
  | kv :: kvs, ind => by
    have h1 := jsize_le_serLen kv.2 ind
    have h2 := jsizeF_le_serLen kvs ind
    simp only [jsizeF, serMembers, List.map_cons, List.sum_cons, List.length_cons]
    omega

end

/-! ### Stepping the parser through one serialized item -/

theorem numStop_newline (l : List Char) : numStop ('\n' :: l) :=
  ⟨by decide, by decide, by decide, by decide⟩

theorem numStop_comma (l : List Char) : numStop (',' :: l) :=
  ⟨by decide, by decide, by decide, by decide⟩

theorem arrItemsText_cons (x : J) (xs : List J) (ind indC : Nat)
    (rest : List Char) :
    ∃ t, arrItemsText (x :: xs) ind indC rest = serJ x ind ++ t := by
  cases xs with
  | nil => exact ⟨_, rfl⟩
  | cons y t2 => exact ⟨_, rfl⟩

theorem objMembersText_head (m0 : String × J) (ms : List (String × J))
    (ind indC : Nat) (rest : List Char) :
    ∃ t, objMembersText (m0 :: ms) ind indC rest = '"' :: t := by
  cases ms with
  | nil => exact ⟨_, rfl⟩
  | cons m1 t2 => exact ⟨_, rfl⟩

theorem skipWs_arrItemsText (x : J) (xs : List J) (ind indC : Nat)
    (rest : List Char) :
    skipWs (arrItemsText (x :: xs) ind indC rest) =
      arrItemsText (x :: xs) ind indC rest := by
  obtain ⟨t, ht⟩ := arrItemsText_cons x xs ind indC rest
  rw [ht, skipWs_serJ]

theorem skipWs_objMembersText (m0 : String × J) (ms : List (String × J))
    (ind indC : Nat) (rest : List Char) :
    skipWs (objMembersText (m0 :: ms) ind indC rest) =
      objMembersText (m0 :: ms) ind indC rest := by
  obtain ⟨t, ht⟩ := objMembersText_head m0 ms ind indC rest
  rw [ht, skipWs_cons_not_ws _ _ (by decide)]

theorem parseArrayTail_step (pv : List Char → Except String (J × List Char))
    (f : Nat) (cs : List Char) (v : J) (r2 : List Char)
    (h1 : pv cs = .ok (v, r2)) :
    parseArrayTail pv (f + 1) cs =
      match skipWs r2 with
      | ',' :: r3 =>
        (match parseArrayTail pv f r3 with
         | .ok (vs, r4) => .ok (v :: vs, r4)
         | .error e => .error e)
      | ']' :: r3 => .ok ([v], r3)
      | _ => .error "expected comma or closing bracket" := by
  simp only [parseArrayTail, h1]

theorem parseObjTail_step (pv : List Char → Except String (J × List Char))
    (f : Nat) (cs r k r1 r2 : List Char) (v : J) (r3 : List Char)
    (h0 : skipWs cs = '"' :: r)
    (h1 : parseStrAux r = .ok (k, r1))
    (h2 : skipWs r1 = ':' :: r2)
    (h3 : pv r2 = .ok (v, r3)) :
    parseObjTail pv (f + 1) cs =
      match skipWs r3 with
      | ',' :: r4 =>
        (match parseObjTail pv f r4 with
         | .ok (kvs, r5) => .ok ((String.mk k, v) :: kvs, r5)
         | .error e => .error e)
      | '\x7d' :: r4 => .ok ([(String.mk k, v)], r4)
      | _ => .error "expected comma or closing brace" := by
  simp only [parseObjTail, h0, h1, h2, h3]

theorem parseArrayTail_congr (pv : List Char → Except String (J × List Char))
    (hcongr : ∀ cs cs2, skipWs cs = skipWs cs2 → pv cs = pv cs2)
    (fuel : Nat) (cs cs2 : List Char) (h : skipWs cs = skipWs cs2) :
    parseArrayTail pv fuel cs = parseArrayTail pv fuel cs2 := by
  cases fuel with
  | zero => rfl
  | succ f => simp only [parseArrayTail, hcongr cs cs2 h]

theorem parseObjTail_congr (pv : List Char → Except String (J × List Char))
    (fuel : Nat) (cs cs2 : List Char) (h : skipWs cs = skipWs cs2) :
    parseObjTail pv fuel cs = parseObjTail pv fuel cs2 := by
  cases fuel with
  | zero => rfl
  | succ f => simp only [parseObjTail, h]

/-! ### The tail parsers consume the serialized items one per iteration -/

theorem parseArrayTail_text (pv : List Char → Except String (J × List Char))
    (hcongr : ∀ cs cs2, skipWs cs = skipWs cs2 → pv cs = pv cs2) :
    ∀ (xs : List J) (ind indC fuel : Nat) (rest : List Char),
      xs ≠ [] → xs.length ≤ fuel →
      (∀ y ∈ xs, ∀ r2, numStop r2 → pv (serJ y ind ++ r2) = .ok (sortKeysJ y, r2)) →
      parseArrayTail pv fuel (arrItemsText xs ind indC rest) =
        .ok (xs.map sortKeysJ, rest) := by
  intro xs
  induction xs with
  | nil => intro _ _ _ _ h; exact absurd rfl h
  | cons x t iht =>
    intro ind indC fuel rest _ hlen hpv
    cases fuel with
    | zero => simp at hlen
    | succ f =>
      cases t with
      | nil =>
        simp only [arrItemsText]
        have hx := hpv x (List.mem_cons_self x [])
          ('\n' :: (pad indC ++ (']' :: rest))) (numStop_newline _)
        rw [parseArrayTail_step pv f _ _ _ hx]
        have hws : skipWs ('\n' :: (pad indC ++ (']' :: rest))) = ']' :: rest := by
          rw [skipWs_newline, skipWs_pad, skipWs_cons_not_ws _ _ (by decide)]
        rw [hws]
        rfl
      | cons y t2 =>
        simp only [arrItemsText]
        have hx := hpv x (List.mem_cons_self x _)
          (',' :: '\n' :: (pad ind ++ arrItemsText (y :: t2) ind indC rest))
          (numStop_comma _)
        rw [parseArrayTail_step pv f _ _ _ hx]
        have hws : skipWs (',' :: '\n' ::
              (pad ind ++ arrItemsText (y :: t2) ind indC rest)) =
            ',' :: ('\n' :: (pad ind ++ arrItemsText (y :: t2) ind indC rest)) :=
          skipWs_cons_not_ws _ _ (by decide)
        rw [hws]
        have hrec : parseArrayTail pv f
            ('\n' :: (pad ind ++ arrItemsText (y :: t2) ind indC rest)) =
            .ok ((y :: t2).map sortKeysJ, rest) := by
          rw [parseArrayTail_congr pv hcongr f _
            (arrItemsText (y :: t2) ind indC rest)
            (by rw [skipWs_newline, skipWs_pad])]
          refine iht ind indC f rest (by simp) ?_
            (fun z hz r2 hr2 => hpv z (List.mem_cons_of_mem _ hz) r2 hr2)
          simp only [List.length_cons] at hlen ⊢
          omega
        split
        · rename_i r3 heq
          simp only [List.cons.injEq] at heq
          rw [← heq.2, hrec]
          rfl
        · rename_i r3 heq
          simp only [List.cons.injEq] at heq
          exact absurd heq.1 (by decide)
        · rename_i heq1 heq2
          exact absurd rfl (heq1 ('\n' ::
            (pad ind ++ arrItemsText (y :: t2) ind indC rest)))

theorem parseObjTail_text (pv : List Char → Except String (J × List Char))
    (hcongr : ∀ cs cs2, skipWs cs = skipWs cs2 → pv cs = pv cs2) :
    ∀ (ms : List (String × J)) (ind indC fuel : Nat) (rest : List Char),
      ms ≠ [] → ms.length ≤ fuel →
      (∀ kv ∈ ms, ∀ r2, numStop r2 →
        pv (serJ kv.2 ind ++ r2) = .ok (sortKeysJ kv.2, r2)) →
      parseObjTail pv fuel (objMembersText ms ind indC rest) =
        .ok (ms.map (fun kv => (kv.1, sortKeysJ kv.2)), rest) := by
  intro ms
  induction ms with
  | nil => intro _ _ _ _ h; exact absurd rfl h
  | cons m0 t iht =>
    intro ind indC fuel rest _ hlen hpv
    cases fuel with
    | zero => simp at hlen
    | succ f =>
      have hv := hpv m0 (List.mem_cons_self m0 t)
      cases t with
      | nil =>
        simp only [objMembersText]
        have harg : serStrChars m0.1 ++ (':' :: ' ' ::
              (serJ m0.2 ind ++ ('\n' :: (pad indC ++ ('\x7d' :: rest))))) =
            '"' :: (m0.1.data.flatMap escChar ++ ('"' :: (':' :: ' ' ::
              (serJ m0.2 ind ++ ('\n' :: (pad indC ++ ('\x7d' :: rest))))))) := by
          simp [serStrChars, List.append_assoc]
        rw [harg]
        have h3 : pv (' ' :: (serJ m0.2 ind ++
              ('\n' :: (pad indC ++ ('\x7d' :: rest))))) =
            .ok (sortKeysJ m0.2, '\n' :: (pad indC ++ ('\x7d' :: rest))) := by
          rw [hcongr _ (serJ m0.2 ind ++ ('\n' :: (pad indC ++ ('\x7d' :: rest))))
            (by rw [skipWs_space, skipWs_serJ])]
          exact hv _ (numStop_newline _)
        rw [parseObjTail_step pv f _ _ _ _ _ _ _
          (skipWs_cons_not_ws _ _ (by decide))
          (parseStrAux_serStr m0.1 _)
          (skipWs_cons_not_ws _ _ (by decide)) h3]
        have hws : skipWs ('\n' :: (pad indC ++ ('\x7d' :: rest))) =
            '\x7d' :: rest := by
          rw [skipWs_newline, skipWs_pad, skipWs_cons_not_ws _ _ (by decide)]
        rw [hws]
        rfl
      | cons m1 t2 =>
        simp only [objMembersText]
        have harg : serStrChars m0.1 ++ (':' :: ' ' ::
              (serJ m0.2 ind ++ (',' :: '\n' ::
                (pad ind ++ objMembersText (m1 :: t2) ind indC rest)))) =
            '"' :: (m0.1.data.flatMap escChar ++ ('"' :: (':' :: ' ' ::
              (serJ m0.2 ind ++ (',' :: '\n' ::
                (pad ind ++ objMembersText (m1 :: t2) ind indC rest)))))) := by
          simp [serStrChars, List.append_assoc]
        rw [harg]
        have h3 : pv (' ' :: (serJ m0.2 ind ++ (',' :: '\n' ::
              (pad ind ++ objMembersText (m1 :: t2) ind indC rest)))) =
            .ok (sortKeysJ m0.2, ',' :: '\n' ::
              (pad ind ++ objMembersText (m1 :: t2) ind indC rest)) := by
          rw [hcongr _ (serJ m0.2 ind ++ (',' :: '\n' ::
              (pad ind ++ objMembersText (m1 :: t2) ind indC rest)))
            (by rw [skipWs_space, skipWs_serJ])]
          exact hv _ (numStop_comma _)
        rw [parseObjTail_step pv f _ _ _ _ _ _ _
          (skipWs_cons_not_ws _ _ (by decide))
          (parseStrAux_serStr m0.1 _)
          (skipWs_cons_not_ws _ _ (by decide)) h3]
        have hws : skipWs (',' :: '\n' ::
              (pad ind ++ objMembersText (m1 :: t2) ind indC rest)) =
            ',' :: ('\n' ::
              (pad ind ++ objMembersText (m1 :: t2) ind indC rest)) :=
          skipWs_cons_not_ws _ _ (by decide)
        rw [hws]
        have hrec : parseObjTail pv f
            ('\n' :: (pad ind ++ objMembersText (m1 :: t2) ind indC rest)) =
            .ok ((m1 :: t2).map (fun kv => (kv.1, sortKeysJ kv.2)), rest) := by
          rw [parseObjTail_congr pv f _
            (objMembersText (m1 :: t2) ind indC rest)
            (by rw [skipWs_newline, skipWs_pad])]
          refine iht ind indC f rest (by simp) ?_
            (fun kv hk r2 hr2 => hpv kv (List.mem_cons_of_mem _ hk) r2 hr2)
          simp only [List.length_cons] at hlen ⊢
          omega
        split
        · rename_i r4 heq
          simp only [List.cons.injEq] at heq
          rw [← heq.2, hrec]
          rfl
        · rename_i r4 heq
          simp only [List.cons.injEq] at heq
          exact absurd heq.1 (by decide)
        · rename_i heq1 heq2
          exact absurd rfl (heq1 ('\n' ::
            (pad ind ++ objMembersText (m1 :: t2) ind indC rest)))

/-! ### The parser inverts the serializer, up to sorting of object keys -/

theorem parseV_serJ : ∀ (N : Nat) (v : J), jsize v ≤ N →
    ∀ (fuel ind : Nat) (rest : List Char), jsize v ≤ fuel →
    uniqKeysJ v = true → numStop rest →
    parseV fuel (serJ v ind ++ rest) = .ok (sortKeysJ v, rest) := by
  intro N
  induction N with
  | zero =>
    intro v hN
    exact absurd hN (by have := jsize_pos v; omega)
  | succ n ih =>
    intro v hN fuel ind rest hfuel hu hns
    cases fuel with
    | zero => exact absurd hfuel (by have := jsize_pos v; omega)
    | succ f =>
      cases v with
      | null => rfl
      | bool b => cases b <;> rfl
      | num k =>
        rw [show serJ (J.num k) ind = intToChars k from rfl, parseV_num f k rest hns]
        rfl
      | str s =>
        have harg : serJ (J.str s) ind ++ rest =
            '"' :: (s.data.flatMap escChar ++ ('"' :: rest)) := by
          simp [serJ, serStrChars, List.append_assoc]
        rw [harg]
        have hstep : parseV (f + 1)
            ('"' :: (s.data.flatMap escChar ++ ('"' :: rest))) =
            (match parseStrAux (s.data.flatMap escChar ++ ('"' :: rest)) with
             | .ok (s2, rest2) => .ok (.str (String.mk s2), rest2)
             | .error e => .error e) := rfl
        rw [hstep, parseStrAux_serStr]
        rfl
      | arr xs =>
        cases xs with
        | nil => rfl
        | cons x xs2 =>
          have harg : serJ (J.arr (x :: xs2)) ind ++ rest =
              '[' :: ('\n' :: (pad (ind + 2) ++
                arrItemsText (x :: xs2) (ind + 2) ind rest)) := by
            rw [show serJ (J.arr (x :: xs2)) ind = '[' :: '\n' ::
              (joinItems (serElems (x :: xs2) (ind + 2)) (ind + 2) ++
                '\n' :: (pad ind ++ [']'])) from rfl]
            rw [← joinItems_bridge (x :: xs2) (ind + 2) ind rest (by simp)]
            simp [List.append_assoc]
          rw [harg]
          have hstep : parseV (f + 1) ('[' :: ('\n' :: (pad (ind + 2) ++
                arrItemsText (x :: xs2) (ind + 2) ind rest))) =
              (match skipWs ('\n' :: (pad (ind + 2) ++
                  arrItemsText (x :: xs2) (ind + 2) ind rest)) with
               | ']' :: rest2 => .ok (.arr [], rest2)
               | rest2 =>
                 match parseArrayTail (parseV f) f rest2 with
                 | .ok (xs3, rest3) => .ok (.arr xs3, rest3)
                 | .error e => .error e) := rfl
          rw [hstep]
          have hsk : skipWs ('\n' :: (pad (ind + 2) ++
              arrItemsText (x :: xs2) (ind + 2) ind rest)) =
              arrItemsText (x :: xs2) (ind + 2) ind rest := by
            rw [skipWs_newline, skipWs_pad, skipWs_arrItemsText]
          rw [hsk]
          have hsz : jsize (J.arr (x :: xs2)) = 1 + jsizeL (x :: xs2) := rfl
          have huL : uniqKeysL (x :: xs2) = true := by
            simpa [uniqKeysJ] using hu
          have hloop : parseArrayTail (parseV f) f
              (arrItemsText (x :: xs2) (ind + 2) ind rest) =
              .ok ((x :: xs2).map sortKeysJ, rest) := by
            refine parseArrayTail_text (parseV f)
              (fun a b h => parseV_congr f a b h)
              (x :: xs2) (ind + 2) ind f rest (by simp) ?_ ?_
            · have := jsizeL_ge_length (x :: xs2)
              rw [hsz] at hN hfuel
              omega
            · intro y hy r2 hr2
              have hyl := jsizeL_lt_of_mem (x :: xs2) y hy
              have hyu := uniqKeysL_mem (x :: xs2) y huL hy
              rw [hsz] at hN hfuel
              exact ih y (by omega) f (ind + 2) r2 (by omega) hyu hr2
          obtain ⟨tT, hT⟩ := arrItemsText_cons x xs2 (ind + 2) ind rest
          obtain ⟨c, t0, hch, hws0, hbr1, hbr2⟩ := serJ_head x (ind + 2)
          have hThead : arrItemsText (x :: xs2) (ind + 2) ind rest =
              c :: (t0 ++ tT) := by
            rw [hT, hch]
            rfl
          split
          · rename_i rest2 heq
            rw [hThead] at heq
            simp only [List.cons.injEq] at heq
            exact absurd heq.1 hbr1
          · rw [hloop,
              show sortKeysJ (J.arr (x :: xs2)) =
                J.arr (sortKeysL (x :: xs2)) from rfl,
              sortKeysL_eq_map]
      | obj kvs =>
        cases kvs with
        | nil => rfl
        | cons kv kvs2 =>
          have hMSne : sortPairs (kv :: kvs2) ≠ [] := sortPairs_ne_nil kv kvs2
          have hperm : List.Perm (sortPairs (kv :: kvs2)) (kv :: kvs2) :=
            List.perm_insertionSort _ _
          have harg : serJ (J.obj (kv :: kvs2)) ind ++ rest =
              '\x7b' :: ('\n' :: (pad (ind + 2) ++
                objMembersText (sortPairs (kv :: kvs2)) (ind + 2) ind rest)) := by
            rw [show serJ (J.obj (kv :: kvs2)) ind = '\x7b' :: '\n' ::
              (joinMembers (sortPairs (serMembers (kv :: kvs2) (ind + 2)))
                  (ind + 2) ++
                '\n' :: (pad ind ++ ['\x7d'])) from rfl]
            have hser : sortPairs (serMembers (kv :: kvs2) (ind + 2)) =
                (sortPairs (kv :: kvs2)).map
                  (fun p => (p.1, serJ p.2 (ind + 2))) := by
              rw [serMembers_eq_map]
              exact sortPairs_map (fun w => serJ w (ind + 2)) (kv :: kvs2)
            rw [hser]
            rw [← joinMembers_bridge (sortPairs (kv :: kvs2)) (ind + 2) ind rest
              hMSne]
            simp [List.append_assoc]
          rw [harg]
          have hstep : parseV (f + 1) ('\x7b' :: ('\n' :: (pad (ind + 2) ++
                objMembersText (sortPairs (kv :: kvs2)) (ind + 2) ind rest))) =
              (match skipWs ('\n' :: (pad (ind + 2) ++
                  objMembersText (sortPairs (kv :: kvs2)) (ind + 2) ind rest)) with
               | '\x7d' :: rest2 => .ok (.obj [], rest2)
               | rest2 =>
                 match parseObjTail (parseV f) f rest2 with
                 | .ok (kvs3, rest3) => .ok (.obj (dictOfPairs kvs3), rest3)
                 | .error e => .error e) := rfl
          rw [hstep]
          obtain ⟨m0, mrest, hMS⟩ :
              ∃ m0 mrest, sortPairs (kv :: kvs2) = m0 :: mrest := by
            cases hMS0 : sortPairs (kv :: kvs2) with
            | nil => exact absurd hMS0 hMSne
            | cons m0 mrest => exact ⟨m0, mrest, rfl⟩
          have hsk : skipWs ('\n' :: (pad (ind + 2) ++
              objMembersText (sortPairs (kv :: kvs2)) (ind + 2) ind rest)) =
              objMembersText (sortPairs (kv :: kvs2)) (ind + 2) ind rest := by
            rw [skipWs_newline, skipWs_pad, hMS, skipWs_objMembersText]
          rw [hsk]
          have hsz : jsize (J.obj (kv :: kvs2)) = 1 + jsizeF (kv :: kvs2) := rfl
          have hu2 : nodupKeysB ((kv :: kvs2).map Prod.fst) = true ∧
              uniqKeysF (kv :: kvs2) = true := by
            simpa [uniqKeysJ, Bool.and_eq_true] using hu
          have hloop : parseObjTail (parseV f) f
              (objMembersText (sortPairs (kv :: kvs2)) (ind + 2) ind rest) =
              .ok ((sortPairs (kv :: kvs2)).map
                (fun kw => (kw.1, sortKeysJ kw.2)), rest) := by
            refine parseObjTail_text (parseV f)
              (fun a b h => parseV_congr f a b h)
              (sortPairs (kv :: kvs2)) (ind + 2) ind f rest hMSne ?_ ?_
            · have hl : (sortPairs (kv :: kvs2)).length = (kv :: kvs2).length :=
                hperm.length_eq
              have := jsizeF_ge_length (kv :: kvs2)
              rw [hsz] at hN hfuel
              omega
            · intro kw hkw r2 hr2
              have hkw2 : kw ∈ kv :: kvs2 := hperm.mem_iff.mp hkw
              have hkl := jsizeF_lt_of_mem (kv :: kvs2) kw hkw2
              have hku := uniqKeysF_mem (kv :: kvs2) kw hu2.2 hkw2
              rw [hsz] at hN hfuel
              exact ih kw.2 (by omega) f (ind + 2) r2 (by omega) hku hr2
          obtain ⟨tT, hT⟩ := objMembersText_head m0 mrest (ind + 2) ind rest
          split
          · rename_i rest2 heq
            rw [hMS, hT] at heq
            simp only [List.cons.injEq] at heq
            exact absurd heq.1 (by decide)
          · rw [hloop]
            have hnd0 : ((kv :: kvs2).map Prod.fst).Nodup :=
              (nodupKeysB_iff _).mp hu2.1
            have hnd1 : ((sortPairs (kv :: kvs2)).map Prod.fst).Nodup :=
              ((hperm.map Prod.fst).nodup_iff).mpr hnd0
            have hnodup : nodupKeysB (((sortPairs (kv :: kvs2)).map
                (fun kw => (kw.1, sortKeysJ kw.2))).map Prod.fst) = true := by
              rw [List.map_map]
              exact (nodupKeysB_iff _).mpr hnd1
            have hsortF : sortPairs (sortKeysF (kv :: kvs2)) =
                (sortPairs (kv :: kvs2)).map (fun p => (p.1, sortKeysJ p.2)) := by
              rw [sortKeysF_eq_map]
              exact sortPairs_map sortKeysJ (kv :: kvs2)
            show Except.ok (J.obj (dictOfPairs ((sortPairs (kv :: kvs2)).map
              (fun kw => (kw.1, sortKeysJ kw.2)))), rest) = _
            rw [dictOfPairs_self _ hnodup,
              show sortKeysJ (J.obj (kv :: kvs2)) =
                J.obj (sortPairs (sortKeysF (kv :: kvs2))) from rfl,
              hsortF]

theorem json_load_save (f : PackageResolvedFile)
    (hu : uniqKeysJ f.packages = true) :
    json_load (save f) = .ok (sortKeysJ f.packages) := by
  have hdata : (save f).data = serJ f.packages 0 ++ ['\n'] := rfl
  have hlen : (save f).length = (serJ f.packages 0).length + 1 := by
    show (save f).data.length = _
    rw [hdata, List.length_append]
    rfl
  have hpv : parseV ((save f).length + 1) (save f).data =
      .ok (sortKeysJ f.packages, ['\n']) := by
    rw [hdata, hlen]
    exact parseV_serJ (jsize f.packages) f.packages le_rfl
      ((serJ f.packages 0).length + 1 + 1) 0 ['\n']
      (by have := jsize_le_serLen f.packages 0; omega) hu (numStop_newline _)
  rw [json_load, hpv]
  rfl

/-! ### Sorting object keys preserves Python equality and document access -/

theorem pyEqL_sortKeys_of (xs : List J)
    (h : ∀ x ∈ xs, pyEq (sortKeysJ x) x = true) :
    pyEqL (sortKeysL xs) xs = true := by
  induction xs with
  | nil => simp [sortKeysL, pyEqL]
  | cons x t ih =>
    simp only [sortKeysL, pyEqL, Bool.and_eq_true]
    exact ⟨h x (List.mem_cons_self x t),
      ih (fun y hy => h y (List.mem_cons_of_mem _ hy))⟩

theorem pyEq_sortKeys_size : ∀ (N : Nat) (a : J), jsize a ≤ N →
    uniqKeysJ a = true → pyEq (sortKeysJ a) a = true := by
  intro N
  induction N with
  | zero =>
    intro a ha
    exact absurd ha (by have := jsize_pos a; omega)
  | succ n ih =>
    intro a ha hu
    cases a with
    | null => simp [sortKeysJ, pyEq]
    | bool b => simp [sortKeysJ, pyEq]
    | num i => simp [sortKeysJ, pyEq]
    | str s => simp [sortKeysJ, pyEq]
    | arr xs =>
      rw [show sortKeysJ (J.arr xs) = J.arr (sortKeysL xs) from rfl]
      simp only [pyEq, Bool.and_eq_true, beq_iff_eq]
      refine ⟨by rw [sortKeysL_eq_map]; simp,
        pyEqL_sortKeys_of xs (fun x hx => ?_)⟩
      have h1 := jsizeL_lt_of_mem xs x hx
      have h2 : jsize (J.arr xs) = 1 + jsizeL xs := rfl
      exact ih x (by omega) (uniqKeysL_mem xs x (by simpa [uniqKeysJ] using hu) hx)
    | obj kvs =>
      simp only [uniqKeysJ, Bool.and_eq_true] at hu
      rw [show sortKeysJ (J.obj kvs) = J.obj (sortPairs (sortKeysF kvs)) from rfl]
      have hperm : List.Perm (sortPairs (sortKeysF kvs)) (sortKeysF kvs) :=
        List.perm_insertionSort _ _
      simp only [pyEq, Bool.and_eq_true, beq_iff_eq]
      constructor
      · rw [hperm.length_eq, sortKeysF_eq_map, List.length_map]
      · refine pyEqF_of_lookup _ kvs (fun kv hkv => ?_)
        have hkv2 : kv ∈ sortKeysF kvs := hperm.mem_iff.mp hkv
        rw [sortKeysF_eq_map] at hkv2
        obtain ⟨p, hp, hpe⟩ := List.mem_map.mp hkv2
        have h1 := jsizeF_lt_of_mem kvs p hp
        have h2 : jsize (J.obj kvs) = 1 + jsizeF kvs := rfl
        refine ⟨p.2, ?_, ?_⟩
        · rw [← hpe]
          exact lookupKey_mem_of_nodup kvs p hu.1 hp
        · rw [← hpe]
          exact ih p.2 (by omega) (uniqKeysF_mem kvs p hu.2 hp)

theorem pyEq_sortKeys (a : J) (hu : uniqKeysJ a = true) :
    pyEq (sortKeysJ a) a = true :=
  pyEq_sortKeys_size (jsize a) a le_rfl hu

theorem lookupKey_map (g : J → J) (l : List (String × J)) (k : String) :
    lookupKey (l.map (fun p => (p.1, g p.2))) k = (lookupKey l k).map g := by
  induction l with
  | nil => rfl
  | cons p t ih =>
    obtain ⟨k1, v1⟩ := p
    by_cases h : k1 = k
    · simp [lookupKey, h]
    · simp [lookupKey, h, ih]

theorem lookupKey_sortKeysF (kvs : List (String × J)) (k : String)
    (hn : nodupKeysB (kvs.map Prod.fst) = true) :
    lookupKey (sortPairs (sortKeysF kvs)) k = (lookupKey kvs k).map sortKeysJ := by
  have hperm : List.Perm kvs (sortPairs kvs) :=
    (List.perm_insertionSort _ _).symm
  have h1 : sortPairs (sortKeysF kvs) =
      (sortPairs kvs).map (fun p => (p.1, sortKeysJ p.2)) := by
    rw [sortKeysF_eq_map]
    exact sortPairs_map sortKeysJ kvs
  rw [h1, lookupKey_map,
    lookupKey_perm kvs (sortPairs kvs) hperm ((nodupKeysB_iff _).mp hn) k]

theorem sortKeysJ_of_pyEq_num (w : J) (k : Int)
    (h : pyEq w (J.num k) = true) : sortKeysJ w = w := by
  cases w with
  | null => simp [pyEq] at h
  | bool b => rfl
  | num i => rfl
  | str s => simp [pyEq] at h
  | arr xs => simp [pyEq] at h
  | obj kvs => simp [pyEq] at h

theorem jIndex_sortKeys (topKvs : List (String × J)) (k : String) (w : J)
    (hn : nodupKeysB (topKvs.map Prod.fst) = true)
    (h : lookupKey topKvs k = some w) :
    jIndex (sortKeysJ (J.obj topKvs)) k = .ok (sortKeysJ w) := by
  rw [show sortKeysJ (J.obj topKvs) = J.obj (sortPairs (sortKeysF topKvs)) from rfl]
  simp only [jIndex, lookupKey_sortKeysF topKvs k hn, h]
  rfl

theorem getPins_sortKeys (topKvs : List (String × J)) (pins : List J)
    (hu : uniqKeysJ (J.obj topKvs) = true)
    (h : getPins (J.obj topKvs) = .ok pins) :
    getPins (sortKeysJ (J.obj topKvs)) = .ok (pins.map sortKeysJ) ∧
    uniqKeysL pins = true := by
  simp only [uniqKeysJ, Bool.and_eq_true] at hu
  cases hob : lookupKey topKvs "object" with
  | none => simp [getPins, hob] at h
  | some w =>
    cases w with
    | null => simp [getPins, hob] at h
    | bool b => simp [getPins, hob] at h
    | num i => simp [getPins, hob] at h
    | str s => simp [getPins, hob] at h
    | arr xs => simp [getPins, hob] at h
    | obj objKvs =>
      have hmemO := mem_of_lookupKey_eq_some topKvs "object" _ hob
      have huO : uniqKeysJ (J.obj objKvs) = true :=
        uniqKeysF_mem topKvs ("object", J.obj objKvs) hu.2 hmemO
      simp only [uniqKeysJ, Bool.and_eq_true] at huO
      cases hpi : lookupKey objKvs "pins" with
      | none => simp [getPins, hob, hpi] at h
      | some u =>
        cases u with
        | null => simp [getPins, hob, hpi] at h
        | bool b => simp [getPins, hob, hpi] at h
        | num i => simp [getPins, hob, hpi] at h
        | str s => simp [getPins, hob, hpi] at h
        | obj kvs3 => simp [getPins, hob, hpi] at h
        | arr pins2 =>
          simp only [getPins, hob, hpi, Except.ok.injEq] at h
          have hmemP := mem_of_lookupKey_eq_some objKvs "pins" _ hpi
          have huP : uniqKeysJ (J.arr pins2) = true :=
            uniqKeysF_mem objKvs ("pins", J.arr pins2) huO.2 hmemP
          have e1 : lookupKey (sortPairs (sortKeysF topKvs)) "object" =
              some (J.obj (sortPairs (sortKeysF objKvs))) := by
            rw [lookupKey_sortKeysF topKvs _ hu.1, hob]
            rfl
          have e2 : lookupKey (sortPairs (sortKeysF objKvs)) "pins" =
              some (J.arr (sortKeysL pins2)) := by
            rw [lookupKey_sortKeysF objKvs _ huO.1, hpi]
            rfl
          constructor
          · rw [show sortKeysJ (J.obj topKvs) =
              J.obj (sortPairs (sortKeysF topKvs)) from rfl]
            simp only [getPins, e1, e2, sortKeysL_eq_map, h]
          · rw [← h]
            simpa [uniqKeysJ] using huP

/-! ## C5: the save/reload round trip preserves the pins -/

/-- C5: loading a valid document, calling `save` with no intervening
mutation, then re-constructing from the written text succeeds and yields
the same document with every object's keys sorted; the reloaded document
is Python-`==` to the original, the reloaded `pins` array is the original
one in the same order (each pin re-keyed by sorting), and each reloaded
pin is Python-`==` to the corresponding original pin, so names, repository
URLs and state values all survive the round trip. -/
theorem save_reload_preserves_pins (f : PackageResolvedFile)
    (hu : uniqKeysJ f.packages = true)
    (ver : J) (hver : jIndex f.packages "version" = .ok ver)
    (hver1 : pyEq ver (J.num supportedVersion) = true)
    (pins : List J) (hpins : getPins f.packages = .ok pins) :
    construct f.path (save f) = .ok ⟨f.path, sortKeysJ f.packages⟩ ∧
    pyEq (sortKeysJ f.packages) f.packages = true ∧
    getPins (sortKeysJ f.packages) = .ok (pins.map sortKeysJ) ∧
    ∀ p ∈ pins, pyEq (sortKeysJ p) p = true := by
  cases hd : f.packages with
  | null => rw [hd] at hver; simp [jIndex] at hver
  | bool b => rw [hd] at hver; simp [jIndex] at hver
  | num i => rw [hd] at hver; simp [jIndex] at hver
  | str s => rw [hd] at hver; simp [jIndex] at hver
  | arr xs => rw [hd] at hver; simp [jIndex] at hver
  | obj topKvs =>
    rw [hd] at hver hpins hu
    have hu2 : nodupKeysB (topKvs.map Prod.fst) = true ∧
        uniqKeysF topKvs = true := by
      simpa [uniqKeysJ, Bool.and_eq_true] using hu
    cases hlv : lookupKey topKvs "version" with
    | none => simp [jIndex, hlv] at hver
    | some ver2 =>
      simp only [jIndex, hlv, Except.ok.injEq] at hver
      obtain ⟨hgp, hupins⟩ := getPins_sortKeys topKvs pins hu hpins
      refine ⟨?_, pyEq_sortKeys _ hu, hgp, ?_⟩
      · have hload : json_load (save f) = .ok (sortKeysJ (J.obj topKvs)) := by
          have := json_load_save f (by rw [hd]; exact hu)
          rw [hd] at this
          exact this
        have hvx : jIndex (sortKeysJ (J.obj topKvs)) "version" =
            .ok (sortKeysJ ver) := by
          refine jIndex_sortKeys topKvs "version" ver hu2.1 ?_
          rw [hlv, hver]
        simp only [construct, hload, hvx,
          sortKeysJ_of_pyEq_num ver supportedVersion hver1, hver1, if_true]
      · intro p hp
        exact pyEq_sortKeys p (uniqKeysL_mem pins p hupins hp)

/-- A reader for the claim-C5 witness: the hypotheses of
`save_reload_preserves_pins` hold of the sample document, and so therefore
does its conclusion. -/
theorem save_reload_preserves_pins_witness :
    uniqKeysJ sampleFile.packages = true ∧
    (construct sampleFile.path (save sampleFile) =
        .ok ⟨sampleFile.path, sortKeysJ sampleFile.packages⟩ ∧
      pyEq (sortKeysJ sampleFile.packages) sampleFile.packages = true ∧
      getPins (sortKeysJ sampleFile.packages) =
        .ok ([samplePin, samplePin2].map sortKeysJ) ∧
      ∀ p ∈ [samplePin, samplePin2], pyEq (sortKeysJ p) p = true) :=
  ⟨by decide,
    save_reload_preserves_pins sampleFile (by decide) (J.num 1) (by decide)
      (by decide) [samplePin, samplePin2] (by decide)⟩

/-! ### The shape of the dumped text: last character and newline indentation -/

theorem ne_of_not_ws (c : Char) (h : isWsB c = false) : c ≠ '\n' ∧ c ≠ ' ' := by
  constructor
  · intro he
    subst he
    simp [isWsB] at h
  · intro he
    subst he
    simp [isWsB] at h

theorem mem_of_getLast : ∀ (l : List Char) (c : Char), l.getLast? = some c → c ∈ l
  | [], c, h => by simp at h
  | [a], c, h => by
    simp only [List.getLast?_singleton, Option.some.injEq] at h
    simp [h]
  | a :: b :: t, c, h => by
    rw [List.getLast?_cons_cons] at h
    exact List.mem_cons_of_mem a (mem_of_getLast (b :: t) c h)

theorem getLast_some_of_ne_nil : ∀ (l : List Char), l ≠ [] →
    ∃ c, l.getLast? = some c
  | [], h => absurd rfl h
  | [a], _ => ⟨a, by simp⟩
  | a :: b :: t, _ => by
    obtain ⟨c, hc⟩ := getLast_some_of_ne_nil (b :: t) (by simp)
    exact ⟨c, by rw [List.getLast?_cons_cons]; exact hc⟩

theorem serJ_getLast (v : J) (ind : Nat) :
    ∃ c, (serJ v ind).getLast? = some c ∧ c ≠ ' ' ∧ c ≠ '\n' := by
  cases v with
  | null =>
    refine ⟨'l', ?_, by decide, by decide⟩
    rw [show serJ J.null ind = ['n', 'u', 'l', 'l'] from rfl]
    decide
  | bool b =>
    cases b with
    | true =>
      refine ⟨'e', ?_, by decide, by decide⟩
      rw [show serJ (J.bool true) ind = ['t', 'r', 'u', 'e'] from rfl]
      decide
    | false =>
      refine ⟨'e', ?_, by decide, by decide⟩
      rw [show serJ (J.bool false) ind = ['f', 'a', 'l', 's', 'e'] from rfl]
      decide
  | num k =>
    cases k with
    | ofNat m =>
      obtain ⟨c, hc⟩ := getLast_some_of_ne_nil (natToChars m) (natToChars_ne_nil m)
      have hd := natToChars_digits m c (mem_of_getLast _ _ hc)
      obtain ⟨hws, _⟩ := isDigitB_facts c hd
      obtain ⟨h1, h2⟩ := ne_of_not_ws c hws
      refine ⟨c, ?_, h2, h1⟩
      rw [show serJ (J.num (Int.ofNat m)) ind = natToChars m from rfl]
      exact hc
    | negSucc m =>
      obtain ⟨c, hc⟩ := getLast_some_of_ne_nil (natToChars (m + 1))
        (natToChars_ne_nil (m + 1))
      have hd := natToChars_digits (m + 1) c (mem_of_getLast _ _ hc)
      obtain ⟨hws, _⟩ := isDigitB_facts c hd
      obtain ⟨h1, h2⟩ := ne_of_not_ws c hws
      refine ⟨c, ?_, h2, h1⟩
      rw [show serJ (J.num (Int.negSucc m)) ind = '-' :: natToChars (m + 1) from rfl]
      cases hl : natToChars (m + 1) with
      | nil => exact absurd hl (natToChars_ne_nil (m + 1))
      | cons d t =>
        rw [hl] at hc
        rw [List.getLast?_cons_cons]
        exact hc
  | str s =>
    refine ⟨'"', ?_, by decide, by decide⟩
    rw [show serJ (J.str s) ind = ('"' :: s.data.flatMap escChar) ++ ['"'] from by
      simp [serJ, serStrChars], List.getLast?_concat]
  | arr xs =>
    cases xs with
    | nil =>
      refine ⟨']', ?_, by decide, by decide⟩
      rw [show serJ (J.arr []) ind = ['[', ']'] from rfl]
      decide
    | cons x xs2 =>
      refine ⟨']', ?_, by decide, by decide⟩
      rw [show serJ (J.arr (x :: xs2)) ind =
        ('[' :: '\n' :: (joinItems (serElems (x :: xs2) (ind + 2)) (ind + 2) ++
          ('\n' :: pad ind))) ++ [']'] from by
            simp [serJ, List.append_assoc], List.getLast?_concat]
  | obj kvs =>
    cases kvs with
    | nil =>
      refine ⟨'\x7d', ?_, by decide, by decide⟩
      rw [show serJ (J.obj []) ind = ['\x7b', '\x7d'] from rfl]
      decide
    | cons kv kvs2 =>
      refine ⟨'\x7d', ?_, by decide, by decide⟩
      rw [show serJ (J.obj (kv :: kvs2)) ind =
        ('\x7b' :: '\n' ::
          (joinMembers (sortPairs (serMembers (kv :: kvs2) (ind + 2))) (ind + 2) ++
            ('\n' :: pad ind))) ++ ['\x7d'] from by
              simp [serJ, List.append_assoc], List.getLast?_concat]

theorem leadSpaces_cons (c : Char) (t : List Char) :
    leadSpaces (c :: t) = if c = ' ' then leadSpaces t + 1 else 0 := rfl

theorem nlRunsEven_cons (c : Char) (t : List Char) :
    nlRunsEven (c :: t) =
      ((if c = '\n' then leadSpaces t % 2 == 0 else true) && nlRunsEven t) := rfl

theorem leadSpaces_append_nonspace : ∀ (a b : List Char),
    (∃ c ∈ a, c ≠ ' ') → leadSpaces (a ++ b) = leadSpaces a := by
  intro a
  induction a with
  | nil =>
    intro b h
    obtain ⟨c, hc, _⟩ := h
    simp at hc
  | cons c t ih =>
    intro b h
    rw [show (c :: t) ++ b = c :: (t ++ b) from rfl, leadSpaces_cons,
      leadSpaces_cons]
    by_cases hc : c = ' '
    · rw [if_pos hc, if_pos hc]
      obtain ⟨d, hd, hdne⟩ := h
      have hdt : d ∈ t := by
        cases List.mem_cons.mp hd with
        | inl h2 => rw [h2] at hdne; exact absurd hc hdne
        | inr h2 => exact h2
      rw [ih b ⟨d, hdt, hdne⟩]
    · rw [if_neg hc, if_neg hc]

theorem leadSpaces_pad : ∀ (n : Nat) (b : List Char),
    leadSpaces (pad n ++ b) = n + leadSpaces b := by
  intro n
  induction n with
  | zero => intro b; simp [pad]
  | succ m ih =>
    intro b
    rw [show pad (m + 1) ++ b = ' ' :: (pad m ++ b) from rfl, leadSpaces_cons,
      if_pos rfl, ih]
    omega

theorem nlRunsEven_of_no_nl : ∀ (l : List Char), (∀ c ∈ l, c ≠ '\n') →
    nlRunsEven l = true := by
  intro l
  induction l with
  | nil => intro; rfl
  | cons c t ih =>
    intro h
    have hc := h c (List.mem_cons_self c t)
    rw [nlRunsEven_cons, if_neg hc,
      ih (fun d hd => h d (List.mem_cons_of_mem c hd))]
    rfl

theorem nlRunsEven_pad : ∀ (n : Nat) (b : List Char),
    nlRunsEven (pad n ++ b) = nlRunsEven b := by
  intro n
  induction n with
  | zero => intro b; simp [pad]
  | succ m ih =>
    intro b
    rw [show pad (m + 1) ++ b = ' ' :: (pad m ++ b) from rfl, nlRunsEven_cons,
      if_neg (by decide), ih]
    simp

theorem nlRunsEven_append : ∀ (a b : List Char), nlRunsEven a = true →
    nlRunsEven b = true →
    (∀ c, a.getLast? = some c → c ≠ ' ' ∧ c ≠ '\n') →
    nlRunsEven (a ++ b) = true := by
  intro a
  induction a with
  | nil =>
    intro b _ hb _
    simpa using hb
  | cons c t ih =>
    intro b ha hb hend
    rw [nlRunsEven_cons, Bool.and_eq_true] at ha
    cases t with
    | nil =>
      obtain ⟨h1, h2⟩ := hend c (by simp)
      rw [show ([c] : List Char) ++ b = c :: b from rfl, nlRunsEven_cons,
        if_neg h2, hb]
      rfl
    | cons d t2 =>
      have hend2 : ∀ e, (d :: t2).getLast? = some e → e ≠ ' ' ∧ e ≠ '\n' := by
        intro e he
        refine hend e ?_
        rw [List.getLast?_cons_cons]
        exact he
      have ht := ih b ha.2 hb hend2
      rw [show (c :: d :: t2) ++ b = c :: ((d :: t2) ++ b) from rfl,
        nlRunsEven_cons, ht]
      by_cases hc : c = '\n'
      · rw [if_pos hc]
        obtain ⟨e, he⟩ := getLast_some_of_ne_nil (d :: t2) (by simp)
        obtain ⟨he1, _⟩ := hend2 e he
        rw [leadSpaces_append_nonspace (d :: t2) b
          ⟨e, mem_of_getLast _ _ he, he1⟩]
        have h0 := ha.1
        rw [if_pos hc] at h0
        rw [h0]
        rfl
      · rw [if_neg hc]
        rfl

theorem hexDigitChar_ne_nl (d : Nat) (h : d < 16) : hexDigitChar d ≠ '\n' := by
  interval_cases d <;> decide

theorem hex4chars_no_nl (n : Nat) (d : Char) (h : d ∈ hex4chars n) : d ≠ '\n' := by
  simp only [hex4chars, List.mem_cons, List.not_mem_nil, or_false] at h
  rcases h with h | h | h | h <;>
    (subst h; exact hexDigitChar_ne_nl _ (Nat.mod_lt _ (by omega)))

set_option maxHeartbeats 1600000 in
theorem escChar_no_nl (c0 : Char) (d : Char) (h : d ∈ escChar c0) : d ≠ '\n' := by
  unfold escChar at h
  split_ifs at h with h1 h2 h3 h4 h5 h6 h7 h8 h9 h10
  · simp only [List.mem_cons, List.not_mem_nil, or_false] at h
    rcases h with h | h <;> (subst h; decide)
  · simp only [List.mem_cons, List.not_mem_nil, or_false] at h
    rcases h with h | h <;> (subst h; decide)
  · simp only [List.mem_cons, List.not_mem_nil, or_false] at h
    rcases h with h | h <;> (subst h; decide)
  · simp only [List.mem_cons, List.not_mem_nil, or_false] at h
    rcases h with h | h <;> (subst h; decide)
  · simp only [List.mem_cons, List.not_mem_nil, or_false] at h
    rcases h with h | h <;> (subst h; decide)
  · simp only [List.mem_cons, List.not_mem_nil, or_false] at h
    rcases h with h | h <;> (subst h; decide)
  · simp only [List.mem_cons, List.not_mem_nil, or_false] at h
    rcases h with h | h <;> (subst h; decide)
  · simp only [List.mem_cons] at h
    rcases h with h | h | h
    · subst h; decide
    · subst h; decide
    · exact hex4chars_no_nl _ _ h
  · simp only [List.mem_cons, List.not_mem_nil, or_false] at h
    subst h
    exact h3
  · simp only [List.mem_cons] at h
    rcases h with h | h | h
    · subst h; decide
    · subst h; decide
    · exact hex4chars_no_nl _ _ h
  · simp only [List.mem_append, List.mem_cons] at h
    rcases h with (h | h | h) | (h | h | h)
    · subst h; decide
    · subst h; decide
    · exact hex4chars_no_nl _ _ h
    · subst h; decide
    · subst h; decide
    · exact hex4chars_no_nl _ _ h

theorem serStr_no_nl (s : String) (d : Char) (h : d ∈ serStrChars s) : d ≠ '\n' := by
  simp only [serStrChars, List.mem_cons, List.mem_append, List.not_mem_nil,
    or_false] at h
  rcases h with h | h | h
  · subst h; decide
  · obtain ⟨c0, _, hd⟩ := List.mem_flatMap.mp h
    exact escChar_no_nl c0 d hd
  · subst h; decide

theorem serStr_getLast (s : String) : (serStrChars s).getLast? = some '"' := by
  rw [show serStrChars s = ('"' :: s.data.flatMap escChar) ++ ['"'] from by
    simp [serStrChars], List.getLast?_concat]

theorem nlRunsEven_serStr (s : String) : nlRunsEven (serStrChars s) = true :=
  nlRunsEven_of_no_nl _ (fun c hc => serStr_no_nl s c hc)

theorem intToChars_no_nl (n : Int) (d : Char) (h : d ∈ intToChars n) :
    d ≠ '\n' ∧ d ≠ ' ' := by
  have hdig : ∀ m (c : Char), c ∈ natToChars m → c ≠ '\n' ∧ c ≠ ' ' := by
    intro m c hm
    have hd := natToChars_digits m c hm
    obtain ⟨hws, _⟩ := isDigitB_facts c hd
    exact ne_of_not_ws c hws
  cases n with
  | ofNat m => exact hdig m d h
  | negSucc m =>
    rw [show intToChars (Int.negSucc m) = '-' :: natToChars (m + 1) from rfl] at h
    rcases List.mem_cons.mp h with h | h
    · subst h
      exact ⟨by decide, by decide⟩
    · exact hdig (m + 1) d h

theorem nlRunsEven_arrText : ∀ (xs : List J) (ind indC : Nat),
    ind % 2 = 0 → indC % 2 = 0 →
    (∀ y ∈ xs, nlRunsEven (serJ y ind) = true) →
    nlRunsEven (arrItemsText xs ind indC []) = true := by
  intro xs
  induction xs with
  | nil =>
    intro ind indC _ _ _
    rw [show arrItemsText [] ind indC [] = [']'] from rfl]
    decide
  | cons x t ih =>
    intro ind indC hind hindC helems
    have hendx : ∀ c, (serJ x ind).getLast? = some c → c ≠ ' ' ∧ c ≠ '\n' := by
      intro c hc
      obtain ⟨c0, hc0, a1, a2⟩ := serJ_getLast x ind
      rw [hc0] at hc
      injection hc with hc
      subst hc
      exact ⟨a1, a2⟩
    cases t with
    | nil =>
      rw [show arrItemsText [x] ind indC [] =
        serJ x ind ++ ('\n' :: (pad indC ++ (']' :: []))) from rfl]
      refine nlRunsEven_append _ _ (helems x (by simp)) ?_ hendx
      have h1 : leadSpaces (pad indC ++ (']' :: [])) = indC := by
        rw [leadSpaces_pad]
        simp [leadSpaces]
      have h2 : nlRunsEven (pad indC ++ (']' :: [])) = true := by
        rw [nlRunsEven_pad]
        decide
      rw [nlRunsEven_cons, if_pos rfl, h1, h2, hindC]
      rfl
    | cons y t2 =>
      rw [show arrItemsText (x :: y :: t2) ind indC [] =
        serJ x ind ++ (',' :: '\n' ::
          (pad ind ++ arrItemsText (y :: t2) ind indC [])) from rfl]
      refine nlRunsEven_append _ _ (helems x (by simp)) ?_ hendx
      have hlead : leadSpaces (pad ind ++ arrItemsText (y :: t2) ind indC []) =
          ind := by
        rw [leadSpaces_pad]
        obtain ⟨tT, hT⟩ := arrItemsText_cons y t2 ind indC []
        obtain ⟨c, t0, hch, hws0, _, _⟩ := serJ_head y ind
        rw [hT, hch, show (c :: t0) ++ tT = c :: (t0 ++ tT) from rfl]
        simp [leadSpaces, (ne_of_not_ws c hws0).2]
      have hrun : nlRunsEven (pad ind ++ arrItemsText (y :: t2) ind indC []) =
          true := by
        rw [nlRunsEven_pad]
        exact ih ind indC hind hindC
          (fun z hz => helems z (List.mem_cons_of_mem _ hz))
      rw [nlRunsEven_cons, if_neg (by decide), nlRunsEven_cons, if_pos rfl,
        hlead, hrun, hind]
      rfl

theorem nlRunsEven_objText : ∀ (ms : List (String × J)) (ind indC : Nat),
    ind % 2 = 0 → indC % 2 = 0 →
    (∀ kv ∈ ms, nlRunsEven (serJ kv.2 ind) = true) →
    nlRunsEven (objMembersText ms ind indC []) = true := by
  intro ms
  induction ms with
  | nil =>
    intro ind indC _ _ _
    rw [show objMembersText [] ind indC [] = ['\x7d'] from rfl]
    decide
  | cons m0 t ih =>
    intro ind indC hind hindC helems
    have hm0 := helems m0 (by simp)
    have hendv : ∀ c, (serJ m0.2 ind).getLast? = some c → c ≠ ' ' ∧ c ≠ '\n' := by
      intro c hc
      obtain ⟨c0, hc0, a1, a2⟩ := serJ_getLast m0.2 ind
      rw [hc0] at hc
      injection hc with hc
      subst hc
      exact ⟨a1, a2⟩
    have hendk : ∀ c, (serStrChars m0.1).getLast? = some c →
        c ≠ ' ' ∧ c ≠ '\n' := by
      intro c hc
      rw [serStr_getLast] at hc
      injection hc with hc
      subst hc
      exact ⟨by decide, by decide⟩
    cases t with
    | nil =>
      rw [show objMembersText [m0] ind indC [] =
        serStrChars m0.1 ++ (':' :: ' ' ::
          (serJ m0.2 ind ++ ('\n' :: (pad indC ++ ('\x7d' :: []))))) from rfl]
      refine nlRunsEven_append _ _ (nlRunsEven_serStr m0.1) ?_ hendk
      have hsep : nlRunsEven ('\n' :: (pad indC ++ ('\x7d' :: []))) = true := by
        have h1 : leadSpaces (pad indC ++ ('\x7d' :: [])) = indC := by
          rw [leadSpaces_pad]
          simp [leadSpaces]
        have h2 : nlRunsEven (pad indC ++ ('\x7d' :: [])) = true := by
          rw [nlRunsEven_pad]
          decide
        rw [nlRunsEven_cons, if_pos rfl, h1, h2, hindC]
        rfl
      have hval := nlRunsEven_append _ _ hm0 hsep hendv
      rw [nlRunsEven_cons, if_neg (by decide), nlRunsEven_cons,
        if_neg (by decide), hval]
      rfl
    | cons m1 t2 =>
      rw [show objMembersText (m0 :: m1 :: t2) ind indC [] =
        serStrChars m0.1 ++ (':' :: ' ' ::
          (serJ m0.2 ind ++ (',' :: '\n' ::
            (pad ind ++ objMembersText (m1 :: t2) ind indC [])))) from rfl]
      refine nlRunsEven_append _ _ (nlRunsEven_serStr m0.1) ?_ hendk
      have hlead : leadSpaces (pad ind ++ objMembersText (m1 :: t2) ind indC []) =
          ind := by
        rw [leadSpaces_pad]
        obtain ⟨tT, hT⟩ := objMembersText_head m1 t2 ind indC []
        rw [hT]
        simp [leadSpaces]
      have hrun : nlRunsEven (pad ind ++ objMembersText (m1 :: t2) ind indC []) =
          true := by
        rw [nlRunsEven_pad]
        exact ih ind indC hind hindC
          (fun kw hk => helems kw (List.mem_cons_of_mem _ hk))
      have hsep : nlRunsEven (',' :: '\n' ::
          (pad ind ++ objMembersText (m1 :: t2) ind indC [])) = true := by
        rw [nlRunsEven_cons, if_neg (by decide), nlRunsEven_cons, if_pos rfl,
          hlead, hrun, hind]
        rfl
      have hval := nlRunsEven_append _ _ hm0 hsep hendv
      rw [nlRunsEven_cons, if_neg (by decide), nlRunsEven_cons,
        if_neg (by decide), hval]
      rfl

theorem nlRunsEven_serJ : ∀ (N : Nat) (v : J), jsize v ≤ N →
    ∀ ind, ind % 2 = 0 → nlRunsEven (serJ v ind) = true := by
  intro N
  induction N with
  | zero =>
    intro v hN
    exact absurd hN (by have := jsize_pos v; omega)
  | succ n ih =>
    intro v hN ind hind
    cases v with
    | null =>
      rw [show serJ J.null ind = ['n', 'u', 'l', 'l'] from rfl]
      decide
    | bool b =>
      cases b with
      | true =>
        rw [show serJ (J.bool true) ind = ['t', 'r', 'u', 'e'] from rfl]
        decide
      | false =>
        rw [show serJ (J.bool false) ind = ['f', 'a', 'l', 's', 'e'] from rfl]
        decide
    | num k =>
      rw [show serJ (J.num k) ind = intToChars k from rfl]
      exact nlRunsEven_of_no_nl _ (fun c hc => (intToChars_no_nl k c hc).1)
    | str s => exact nlRunsEven_serStr s
    | arr xs =>
      cases xs with
      | nil =>
        rw [show serJ (J.arr []) ind = ['[', ']'] from rfl]
        decide
      | cons x xs2 =>
        have harg : serJ (J.arr (x :: xs2)) ind =
            '[' :: ('\n' :: (pad (ind + 2) ++
              arrItemsText (x :: xs2) (ind + 2) ind [])) := by
          rw [show serJ (J.arr (x :: xs2)) ind = '[' :: '\n' ::
            (joinItems (serElems (x :: xs2) (ind + 2)) (ind + 2) ++
              '\n' :: (pad ind ++ [']'])) from rfl,
            ← joinItems_bridge (x :: xs2) (ind + 2) ind [] (by simp)]
        rw [harg]
        have hsz : jsize (J.arr (x :: xs2)) = 1 + jsizeL (x :: xs2) := rfl
        rw [hsz] at hN
        have helems : ∀ y ∈ x :: xs2, nlRunsEven (serJ y (ind + 2)) = true := by
          intro y hy
          have := jsizeL_lt_of_mem (x :: xs2) y hy
          exact ih y (by omega) (ind + 2) (by omega)
        have hlead : leadSpaces (pad (ind + 2) ++
            arrItemsText (x :: xs2) (ind + 2) ind []) = ind + 2 := by
          rw [leadSpaces_pad]
          obtain ⟨tT, hT⟩ := arrItemsText_cons x xs2 (ind + 2) ind []
          obtain ⟨c, t0, hch, hws0, _, _⟩ := serJ_head x (ind + 2)
          rw [hT, hch, show (c :: t0) ++ tT = c :: (t0 ++ tT) from rfl]
          simp [leadSpaces, (ne_of_not_ws c hws0).2]
        have hrun : nlRunsEven (pad (ind + 2) ++
            arrItemsText (x :: xs2) (ind + 2) ind []) = true := by
          rw [nlRunsEven_pad]
          exact nlRunsEven_arrText (x :: xs2) (ind + 2) ind (by omega) hind helems
        have h2 : (ind + 2) % 2 = 0 := by omega
        rw [nlRunsEven_cons, if_neg (by decide), nlRunsEven_cons, if_pos rfl,
          hlead, hrun, h2]
        rfl
    | obj kvs =>
      cases kvs with
      | nil =>
        rw [show serJ (J.obj []) ind = ['\x7b', '\x7d'] from rfl]
        decide
      | cons kv kvs2 =>
        have hMSne : sortPairs (kv :: kvs2) ≠ [] := sortPairs_ne_nil kv kvs2
        have hperm : List.Perm (sortPairs (kv :: kvs2)) (kv :: kvs2) :=
          List.perm_insertionSort _ _
        have harg : serJ (J.obj (kv :: kvs2)) ind =
            '\x7b' :: ('\n' :: (pad (ind + 2) ++
              objMembersText (sortPairs (kv :: kvs2)) (ind + 2) ind [])) := by
          rw [show serJ (J.obj (kv :: kvs2)) ind = '\x7b' :: '\n' ::
            (joinMembers (sortPairs (serMembers (kv :: kvs2) (ind + 2)))
                (ind + 2) ++
              '\n' :: (pad ind ++ ['\x7d'])) from rfl]
          have hser : sortPairs (serMembers (kv :: kvs2) (ind + 2)) =
              (sortPairs (kv :: kvs2)).map
                (fun p => (p.1, serJ p.2 (ind + 2))) := by
            rw [serMembers_eq_map]
            exact sortPairs_map (fun w => serJ w (ind + 2)) (kv :: kvs2)
          rw [hser,
            ← joinMembers_bridge (sortPairs (kv :: kvs2)) (ind + 2) ind [] hMSne]
        rw [harg]
        have hsz : jsize (J.obj (kv :: kvs2)) = 1 + jsizeF (kv :: kvs2) := rfl
        rw [hsz] at hN
        have helems : ∀ kw ∈ sortPairs (kv :: kvs2),
            nlRunsEven (serJ kw.2 (ind + 2)) = true := by
          intro kw hkw
          have hkw2 : kw ∈ kv :: kvs2 := hperm.mem_iff.mp hkw
          have := jsizeF_lt_of_mem (kv :: kvs2) kw hkw2
          exact ih kw.2 (by omega) (ind + 2) (by omega)
        obtain ⟨m0, mrest, hMS⟩ :
            ∃ m0 mrest, sortPairs (kv :: kvs2) = m0 :: mrest := by
          cases hMS0 : sortPairs (kv :: kvs2) with
          | nil => exact absurd hMS0 hMSne
          | cons m0 mrest => exact ⟨m0, mrest, rfl⟩
        have hlead : leadSpaces (pad (ind + 2) ++
            objMembersText (sortPairs (kv :: kvs2)) (ind + 2) ind []) =
            ind + 2 := by
          rw [leadSpaces_pad, hMS]
          obtain ⟨tT, hT⟩ := objMembersText_head m0 mrest (ind + 2) ind []
          rw [hT]
          simp [leadSpaces]
        have hrun : nlRunsEven (pad (ind + 2) ++
            objMembersText (sortPairs (kv :: kvs2)) (ind + 2) ind []) = true := by
          rw [nlRunsEven_pad]
          exact nlRunsEven_objText (sortPairs (kv :: kvs2)) (ind + 2) ind
            (by omega) hind helems
        have h2 : (ind + 2) % 2 = 0 := by omega
        rw [nlRunsEven_cons, if_neg (by decide), nlRunsEven_cons, if_pos rfl,
          hlead, hrun, h2]
        rfl

/-! ### The saved text lists every object's keys in sorted order -/

theorem charsLe_total : ∀ a b : List Char, charsLe a b = true ∨ charsLe b a = true
  | [], _ => Or.inl rfl
  | _ :: _, [] => Or.inr rfl
  | a :: as, b :: bs => by
    by_cases h1 : a.toNat < b.toNat
    · left
      simp [charsLe, h1]
    · by_cases h2 : b.toNat < a.toNat
      · right
        simp [charsLe, h2]
      · cases charsLe_total as bs with
        | inl h => left; simp [charsLe, h1, h2, h]
        | inr h => right; simp [charsLe, h1, h2, h]

theorem charsLe_trans : ∀ a b c : List Char, charsLe a b = true →
    charsLe b c = true → charsLe a c = true
  | [], _, _, _, _ => rfl
  | _ :: _, [], _, h1, _ => by simp [charsLe] at h1
  | _ :: _, _ :: _, [], _, h2 => by simp [charsLe] at h2
  | a :: as, b :: bs, c :: cs, h1, h2 => by
    simp only [charsLe] at h1 h2 ⊢
    by_cases hab : a.toNat < b.toNat
    · by_cases hbc : b.toNat < c.toNat
      · simp [show a.toNat < c.toNat from by omega]
      · by_cases hcb : c.toNat < b.toNat
        · rw [if_neg hbc, if_pos hcb] at h2
          exact absurd h2 (by simp)
        · simp [show a.toNat < c.toNat from by omega]
    · by_cases hba : b.toNat < a.toNat
      · rw [if_neg hab, if_pos hba] at h1
        exact absurd h1 (by simp)
      · rw [if_neg hab, if_neg hba] at h1
        by_cases hbc : b.toNat < c.toNat
        · simp [show a.toNat < c.toNat from by omega]
        · by_cases hcb : c.toNat < b.toNat
          · rw [if_neg hbc, if_pos hcb] at h2
            exact absurd h2 (by simp)
          · rw [if_neg hbc, if_neg hcb] at h2
            have h3 := charsLe_trans as bs cs h1 h2
            simp [show ¬a.toNat < c.toNat from by omega,
              show ¬c.toNat < a.toNat from by omega, h3]

theorem keyLe_total (a b : String) : keyLe a b = true ∨ keyLe b a = true :=
  charsLe_total a.data b.data

theorem keyLe_trans (a b c : String) (h1 : keyLe a b = true)
    (h2 : keyLe b c = true) : keyLe a c = true :=
  charsLe_trans a.data b.data c.data h1 h2

theorem sortedStrB_of_pairwise : ∀ (l : List (String × J)),
    List.Pairwise (fun a b => keyLe a.1 b.1 = true) l →
    sortedStrB (l.map Prod.fst) = true
  | [], _ => rfl
  | [_], _ => rfl
  | a :: b :: t, h => by
    rw [List.pairwise_cons] at h
    have hrest := sortedStrB_of_pairwise (b :: t) h.2
    have hab : keyLe a.1 b.1 = true := h.1 b (by simp)
    simp only [List.map_cons] at hrest ⊢
    rw [show sortedStrB (a.1 :: b.1 :: t.map Prod.fst) =
      (keyLe a.1 b.1 && sortedStrB (b.1 :: t.map Prod.fst)) from rfl]
    simp [hab, hrest]

theorem keysSortedL_of (l : List J) (h : ∀ x ∈ l, keysSortedJ x = true) :
    keysSortedL l = true := by
  induction l with
  | nil => rfl
  | cons x t ih =>
    rw [show keysSortedL (x :: t) = (keysSortedJ x && keysSortedL t) from rfl]
    simp [h x (by simp), ih (fun y hy => h y (List.mem_cons_of_mem _ hy))]

theorem keysSortedF_of (l : List (String × J))
    (h : ∀ kv ∈ l, keysSortedJ kv.2 = true) : keysSortedF l = true := by
  induction l with
  | nil => rfl
  | cons kv t ih =>
    rw [show keysSortedF (kv :: t) = (keysSortedJ kv.2 && keysSortedF t) from rfl]
    simp [h kv (by simp), ih (fun kw hk => h kw (List.mem_cons_of_mem _ hk))]

theorem keysSortedJ_sortKeys : ∀ (N : Nat) (a : J), jsize a ≤ N →
    keysSortedJ (sortKeysJ a) = true := by
  intro N
  induction N with
  | zero =>
    intro a ha
    exact absurd ha (by have := jsize_pos a; omega)
  | succ n ih =>
    intro a ha
    cases a with
    | null => rfl
    | bool b => rfl
    | num i => rfl
    | str s => rfl
    | arr xs =>
      rw [show sortKeysJ (J.arr xs) = J.arr (sortKeysL xs) from rfl,
        show keysSortedJ (J.arr (sortKeysL xs)) = keysSortedL (sortKeysL xs)
          from rfl,
        sortKeysL_eq_map]
      refine keysSortedL_of _ (fun y hy => ?_)
      obtain ⟨x, hx, hxy⟩ := List.mem_map.mp hy
      have := jsizeL_lt_of_mem xs x hx
      have hsz : jsize (J.arr xs) = 1 + jsizeL xs := rfl
      rw [← hxy]
      exact ih x (by omega)
    | obj kvs =>
      rw [show sortKeysJ (J.obj kvs) = J.obj (sortPairs (sortKeysF kvs)) from rfl,
        show keysSortedJ (J.obj (sortPairs (sortKeysF kvs))) =
          (sortedStrB ((sortPairs (sortKeysF kvs)).map Prod.fst) &&
            keysSortedF (sortPairs (sortKeysF kvs))) from rfl]
      have hperm : List.Perm (sortPairs (sortKeysF kvs)) (sortKeysF kvs) :=
        List.perm_insertionSort _ _
      have hsorted : List.Pairwise (fun a b : String × J => keyLe a.1 b.1 = true)
          (sortPairs (sortKeysF kvs)) := by
        haveI : IsTotal (String × J) (fun a b => keyLe a.1 b.1 = true) :=
          ⟨fun a b => keyLe_total a.1 b.1⟩
        haveI : IsTrans (String × J) (fun a b => keyLe a.1 b.1 = true) :=
          ⟨fun a b c => keyLe_trans a.1 b.1 c.1⟩
        exact List.sorted_insertionSort _ _
      have h1 := sortedStrB_of_pairwise _ hsorted
      have h2 : keysSortedF (sortPairs (sortKeysF kvs)) = true := by
        refine keysSortedF_of _ (fun kw hkw => ?_)
        have hkw2 : kw ∈ sortKeysF kvs := hperm.mem_iff.mp hkw
        rw [sortKeysF_eq_map] at hkw2
        obtain ⟨p, hp, hpe⟩ := List.mem_map.mp hkw2
        have := jsizeF_lt_of_mem kvs p hp
        have hsz : jsize (J.obj kvs) = 1 + jsizeF kvs := rfl
        rw [← hpe]
        exact ih p.2 (by omega)
      simp [h1, h2]

/-! ## C6: the canonical form of the saved text -/

/-- C6: `save` writes the full in-memory document followed by exactly one
trailing newline (the payload itself never ends in a newline); every run of
spaces that follows a newline in the written text has even length (the
two-space indentation steps); re-parsing the written text recovers the whole
document with the members of every object — at every nesting level — listed
in sorted key order, while the pins array keeps its loaded order
element-for-element. -/
theorem save_canonical_form (f : PackageResolvedFile)
    (hu : uniqKeysJ f.packages = true) :
    (save f).data = dumps f.packages ++ ['\n'] ∧
    (dumps f.packages).getLast? ≠ some '\n' ∧
    nlRunsEven (save f).data = true ∧
    json_load (save f) = .ok (sortKeysJ f.packages) ∧
    keysSortedJ (sortKeysJ f.packages) = true ∧
    ∀ pins, getPins f.packages = .ok pins →
      getPins (sortKeysJ f.packages) = .ok (pins.map sortKeysJ) := by
  refine ⟨rfl, ?_, ?_, json_load_save f hu,
    keysSortedJ_sortKeys (jsize f.packages) f.packages le_rfl, ?_⟩
  · obtain ⟨c, hc, _, hne⟩ := serJ_getLast f.packages 0
    rw [show dumps f.packages = serJ f.packages 0 from rfl, hc]
    simp [hne]
  · show nlRunsEven (serJ f.packages 0 ++ ['\n']) = true
    refine nlRunsEven_append _ _
      (nlRunsEven_serJ (jsize f.packages) f.packages le_rfl 0 rfl)
      (by decide) ?_
    intro c hc
    obtain ⟨c0, hc0, a1, a2⟩ := serJ_getLast f.packages 0
    rw [hc0] at hc
    injection hc with hc
    subst hc
    exact ⟨a1, a2⟩
  · intro pins hpins
    cases hd : f.packages with
    | null => rw [hd] at hpins; simp [getPins] at hpins
    | bool b => rw [hd] at hpins; simp [getPins] at hpins
    | num i => rw [hd] at hpins; simp [getPins] at hpins
    | str s => rw [hd] at hpins; simp [getPins] at hpins
    | arr xs => rw [hd] at hpins; simp [getPins] at hpins
    | obj topKvs =>
      rw [hd] at hpins hu
      exact (getPins_sortKeys topKvs pins hu hpins).1

/-- A reader for the claim-C6 witness: the hypothesis of
`save_canonical_form` holds of the sample document, and so therefore does
its conclusion. -/
theorem save_canonical_form_witness :
    uniqKeysJ sampleFileExtra.packages = true ∧
    ((save sampleFileExtra).data = dumps sampleFileExtra.packages ++ ['\n'] ∧
      (dumps sampleFileExtra.packages).getLast? ≠ some '\n' ∧
      nlRunsEven (save sampleFileExtra).data = true ∧
      json_load (save sampleFileExtra) = .ok (sortKeysJ sampleFileExtra.packages) ∧
      keysSortedJ (sortKeysJ sampleFileExtra.packages) = true ∧
      ∀ pins, getPins sampleFileExtra.packages = .ok pins →
        getPins (sortKeysJ sampleFileExtra.packages) =
          .ok (pins.map sortKeysJ)) :=
  ⟨by decide, save_canonical_form sampleFileExtra (by decide)⟩

end PackageResolved
